import Mathlib

/-!
Verification development for the hunk-selection and patch-assembly engine
of `skills/prepare-changesets/scripts/patch_apply.py` (with the rename
warning helper from `plan_checks.py`).

The Python code is shallowly embedded: strings are Lean `String`s, Python
`list`s are Lean `List`s, `None`-able values are `Option`s, and raised
`CommandError`s become `Except String` results.  Python string primitives
(`splitlines`, `startswith`, `split(" ")`, `strip`, substring `in`) are
modelled on the character lists underlying `String`.
-/

namespace PatchApply

/-- Characters that Python `str.splitlines` treats as line boundaries
(restricted to the boundary characters that can actually occur in the
byte-oriented diff text this program consumes). -/
def isLineBreakChar (c : Char) : Bool :=
  c = '\n' || c = '\r' || c = '\x0b' || c = '\x0c' ||
  c = '\x1c' || c = '\x1d' || c = '\x1e' || c = '\x85' || c = ' ' || c = ' '

/-- Worker for `pysplitlines`: `acc` holds the (reversed) characters of the
line currently being scanned.  A `\r\n` pair counts as a single boundary. -/
def splitlinesAux : List Char → List Char → List String
  | [], acc => if acc.isEmpty then [] else [String.mk acc.reverse]
  | '\r' :: '\n' :: cs, acc => String.mk acc.reverse :: splitlinesAux cs []
  | '\r' :: cs, acc => String.mk acc.reverse :: splitlinesAux cs []
  | c :: cs, acc =>
    if isLineBreakChar c then
      String.mk acc.reverse :: splitlinesAux cs []
    else
      splitlinesAux cs (c :: acc)

/-- Python `str.splitlines`. -/
def pysplitlines (s : String) : List String :=
  splitlinesAux s.data []

/-- Python `s.startswith(pre)`. -/
def pystartswith (s pre : String) : Bool :=
  pre.data.isPrefixOf s.data

/-- Contiguous-sublist test on character lists. -/
def listIsInfixOf (pat : List Char) : List Char → Bool
  | [] => pat.isEmpty
  | c :: cs => pat.isPrefixOf (c :: cs) || listIsInfixOf pat cs

/-- Python `pat in s` (substring containment). -/
def pyin (pat s : String) : Bool :=
  listIsInfixOf pat.data s.data

/-- Characters removed by Python `str.strip()` (the ASCII whitespace
subset relevant to diff text). -/
def pyIsSpaceChar (c : Char) : Bool :=
  c = ' ' || c = '\t' || c = '\n' || c = '\r' || c = '\x0b' || c = '\x0c'

/-- Python `str.strip()`. -/
def pystrip (s : String) : String :=
  String.mk (((s.data.dropWhile pyIsSpaceChar).reverse.dropWhile pyIsSpaceChar).reverse)

/-- Worker for `pysplitspace`. -/
def splitSpaceAux : List Char → List Char → List String
  | [], acc => [String.mk acc.reverse]
  | c :: cs, acc =>
    if c = ' ' then String.mk acc.reverse :: splitSpaceAux cs []
    else splitSpaceAux cs (c :: acc)

/-- Python `s.split(" ")`: split on every single space, keeping empties. -/
def pysplitspace (s : String) : List String :=
  splitSpaceAux s.data []

/-- Python `s[n:]` on strings (character-based slicing). -/
def pydropchars (s : String) (n : Nat) : String :=
  String.mk (s.data.drop n)

/-- `Hunk` dataclass: one `@@ ... @@` region.  `header` is always the first
element of `lines` as constructed by the parser. -/
structure Hunk where
  header : String
  lines : List String
deriving DecidableEq, Repr

/-- `Hunk.body_lines`: all lines after the header. -/
def Hunk.body_lines (h : Hunk) : List String := h.lines.drop 1

/-- `Hunk.body_text`: body lines joined with newlines; the unit compared
against content filters. -/
def Hunk.body_text (h : Hunk) : String := String.intercalate "\n" h.body_lines

/-- `DiffFile` dataclass: one file entry of the parsed diff. -/
structure DiffFile where
  old_path : Option String
  new_path : Option String
  header_lines : List String
  hunks : List Hunk
  is_binary : Bool
  binary_lines : List String
deriving DecidableEq, Repr

/-- `HunkSelector` dataclass.  `occurrence` is validated to be a positive
integer by `parse_hunk_selectors` before any selector reaches the
resolver, so it is embedded as an (intended-positive) `Nat`. -/
structure HunkSelector where
  file : String
  range_header : Option String
  contains : List String
  excludes : List String
  occurrence : Option Nat
  all_hunks : Bool
  has_filters : Bool
deriving DecidableEq, Repr

/-- `SelectedPatch` dataclass: the assembled output. -/
structure SelectedPatch where
  text : String
  files : Nat
  hunks : Nat
  file_labels : List String
deriving DecidableEq, Repr

/-- `_strip_prefix`: drop a leading `a/` or `b/`; the null device becomes
`None`. -/
def strip_prefix_path (path : String) : Option String :=
  if path == "/dev/null" || path == "dev/null" then none
  else if pystartswith path "a/" || pystartswith path "b/" then some (pydropchars path 2)
  else some path

/-- Python truthiness of an optional string (`None` and `""` are falsy). -/
def optTruthy : Option String → Bool
  | some s => s != ""
  | none => false

/-- `_file_label`: `df.new_path or df.old_path or "<unknown>"`. -/
def fileLabel (df : DiffFile) : String :=
  match df.new_path with
  | some s =>
    if s ≠ "" then s
    else match df.old_path with
      | some t => if t ≠ "" then t else "<unknown>"
      | none => "<unknown>"
  | none =>
    match df.old_path with
    | some t => if t ≠ "" then t else "<unknown>"
    | none => "<unknown>"

/-- The fresh `DiffFile` built at a `diff --git` boundary line. -/
def newFileOf (l : String) : DiffFile :=
  let parts := pysplitspace l
  { old_path := if parts.length > 2 then strip_prefix_path ((parts.drop 2).headD "") else none
    new_path := if parts.length > 3 then strip_prefix_path ((parts.drop 3).headD "") else none
    header_lines := [l]
    hunks := []
    is_binary := false
    binary_lines := [] }

/-- Append a line to the body of the hunk currently being scanned (the last
hunk of the list). -/
def appendLineLast : List Hunk → String → List Hunk
  | [], _ => []
  | [h], l => [⟨h.header, h.lines ++ [l]⟩]
  | h :: hs, l => h :: appendLineLast hs l

/-- Flush the file currently being built, if any. -/
def flushOpt : Option DiffFile → List DiffFile
  | none => []
  | some c => [c]

/-- `parse_unified_diff`, written as a one-line-at-a-time scan.  The state
of the Python `while` loop with its two inner consumption loops is fully
determined by the file record under construction: the binary inner loop is
active exactly when `is_binary` is set, and the hunk inner loop is active
exactly when the hunk list is non-empty (theorem
`parseLoopFuel_complete_aux` proves this formulation equal to the literal
loop-with-cursor formulation `parseLoopFuel`). -/
def parseLines : List String → Option DiffFile → List DiffFile
  | [], cur => flushOpt cur
  | l :: ls, cur =>
    if pystartswith l "diff --git " then
      flushOpt cur ++ parseLines ls (some (newFileOf l))
    else
      match cur with
      | none => parseLines ls none
      | some c =>
        if c.is_binary then
          parseLines ls (some { c with binary_lines := c.binary_lines ++ [l] })
        else if ¬ c.hunks.isEmpty then
          (if pystartswith l "@@ " then
            parseLines ls (some { c with hunks := c.hunks ++ [⟨l, [l]⟩] })
          else
            parseLines ls (some { c with hunks := appendLineLast c.hunks l }))
        else if pystartswith l "GIT binary patch" then
          parseLines ls (some { c with is_binary := true, binary_lines := c.binary_lines ++ [l] })
        else if pystartswith l "@@ " then
          parseLines ls (some { c with hunks := c.hunks ++ [⟨l, [l]⟩] })
        else
          parseLines ls (some { c with header_lines := c.header_lines ++ [l] })

/-- `parse_unified_diff`: split the diff text into lines and scan. -/
def parse_unified_diff (diff_text : String) : List DiffFile :=
  parseLines (pysplitlines diff_text) none

/-- The binary inner loop of the parser: consume lines until the next
`diff --git` boundary, returning the consumed block and the rest. -/
def takeUntilFileStart : List String → List String × List String
  | [] => ([], [])
  | l :: ls =>
    if pystartswith l "diff --git " then ([], l :: ls)
    else (l :: (takeUntilFileStart ls).1, (takeUntilFileStart ls).2)

/-- The hunk inner loop of the parser: consume body lines until the next
`diff --git` or `@@ ` boundary. -/
def takeHunkBody : List String → List String × List String
  | [] => ([], [])
  | l :: ls =>
    if pystartswith l "diff --git " || pystartswith l "@@ " then ([], l :: ls)
    else (l :: (takeHunkBody ls).1, (takeHunkBody ls).2)

/-- The literal loop-with-cursor formulation of `parse_unified_diff`: each
recursive call is one iteration of the Python outer `while` loop, the
inner loops being `takeUntilFileStart` and `takeHunkBody`.  The fuel
counts outer iterations; `none` means the fuel ran out. -/
def parseLoopFuel : Nat → List String → Option DiffFile → Option (List DiffFile)
  | 0, _, _ => none
  | _ + 1, [], cur => some (flushOpt cur)
  | n + 1, l :: ls, cur =>
    if pystartswith l "diff --git " then
      (parseLoopFuel n ls (some (newFileOf l))).map (flushOpt cur ++ ·)
    else
      match cur with
      | none => parseLoopFuel n ls none
      | some c =>
        if pystartswith l "GIT binary patch" then
          parseLoopFuel n (takeUntilFileStart (l :: ls)).2
            (some { c with
              is_binary := true
              binary_lines := c.binary_lines ++ (takeUntilFileStart (l :: ls)).1 })
        else if pystartswith l "@@ " then
          parseLoopFuel n (takeHunkBody ls).2
            (some { c with hunks := c.hunks ++ [⟨l, l :: (takeHunkBody ls).1⟩] })
        else
          parseLoopFuel n ls (some { c with header_lines := c.header_lines ++ [l] })

/-- `_matches_any`: the path matches any of the glob patterns.  `fn` is the
external `fnmatch.fnmatch` collaborator, passed in abstractly. -/
def matchesAny (fn : String → String → Bool) (path : String) (patterns : List String) : Bool :=
  patterns.any (fn path)

/-- Index the selector list so that selector identity (Python `id`) can be
tracked positionally. -/
def enumSel : Nat → List HunkSelector → List (Nat × HunkSelector)
  | _, [] => []
  | n, s :: ss => (n, s) :: enumSel (n + 1) ss

/-- `_selectors_for_file`'s per-selector match test: the selector's path
equals the display label, the (truthy) old path, or the (truthy) new
path. -/
def selectorMatchesFile (s : HunkSelector) (df : DiffFile) : Bool :=
  s.file == fileLabel df ||
  (match df.old_path with
   | some p => p != "" && s.file == p
   | none => false) ||
  (match df.new_path with
   | some p => p != "" && s.file == p
   | none => false)

/-- `_selectors_for_file`, on indexed selectors. -/
def selectors_for_file (isels : List (Nat × HunkSelector)) (df : DiffFile) :
    List (Nat × HunkSelector) :=
  isels.filter (fun p => selectorMatchesFile p.2 df)

/-- The set of truthy paths of a file (`labels` in the source). -/
def pathLabels (df : DiffFile) : List String :=
  ([df.old_path, df.new_path].filterMap id).filter (fun p => p != "")

/-- The include/exclude path-glob checks applied to every consumed
selector. -/
def checkPaths (fn : String → String → Bool) (include_paths exclude_paths : List String)
    (changeset_label sfile : String) (labels : List String) : Except String Unit :=
  if ¬ include_paths.isEmpty ∧ ¬ (labels.any (fun p => matchesAny fn p include_paths)) = true then
    .error (changeset_label ++ ": selector file " ++ sfile ++ " does not match include_paths.")
  else if ¬ exclude_paths.isEmpty ∧ labels.any (fun p => matchesAny fn p exclude_paths) = true then
    .error (changeset_label ++ ": selector file " ++ sfile ++ " is excluded by exclude_paths.")
  else
    .ok ()

/-- The candidate filter of the resolver: keep the hunks whose header
matches the (truthy) range header and whose body text contains every
required substring and no forbidden substring. -/
def candidateHunks (s : HunkSelector) (hunks : List Hunk) : List Hunk :=
  hunks.filter fun h =>
    (match s.range_header with
     | some rh => !(rh != "" && pystrip rh != pystrip h.header)
     | none => true) &&
    (!(¬ s.contains.isEmpty && ¬ (s.contains.all fun c => pyin c h.body_text))) &&
    (!(¬ s.excludes.isEmpty && (s.excludes.any fun c => pyin c h.body_text)))

/-- A placeholder hunk used only as the (unreachable) default of a guarded
positional lookup. -/
def defaultHunk : Hunk := ⟨"", []⟩

/-- The non-`select_all` selector loop: mark each selector consumed, apply
the path checks, resolve its candidates, and accumulate chosen hunks
without duplication (`if chosen_hunk not in chosen`). -/
def selectorLoop (fn : String → String → Bool) (include_paths exclude_paths : List String)
    (changeset_label label : String) (labels : List String) (hunks : List Hunk) :
    List (Nat × HunkSelector) → List Nat → List Hunk → Except String (List Nat × List Hunk)
  | [], seen, chosen => .ok (seen, chosen)
  | (i, s) :: rest, seen, chosen =>
    match checkPaths fn include_paths exclude_paths changeset_label s.file labels with
    | .error e => .error e
    | .ok _ =>
      let cands := candidateHunks s hunks
      if cands.isEmpty then
        .error (changeset_label ++ ": selector for " ++ label ++ " matched no hunks.")
      else
        match s.occurrence with
        | some n =>
          if n > cands.length then
            .error (changeset_label ++ ": selector for " ++ label ++ " occurrence " ++
              toString n ++ " exceeds " ++ toString cands.length ++ " matches.")
          else
            let ch := cands.getD (n - 1) defaultHunk
            if ch ∈ chosen then
              selectorLoop fn include_paths exclude_paths changeset_label label labels hunks
                rest (i :: seen) chosen
            else
              selectorLoop fn include_paths exclude_paths changeset_label label labels hunks
                rest (i :: seen) (chosen ++ [ch])
        | none =>
          if cands.length > 1 then
            .error (changeset_label ++ ": selector for " ++ label ++
              " matched multiple hunks; add occurrence to disambiguate.")
          else
            let ch := cands.getD 0 defaultHunk
            if ch ∈ chosen then
              selectorLoop fn include_paths exclude_paths changeset_label label labels hunks
                rest (i :: seen) chosen
            else
              selectorLoop fn include_paths exclude_paths changeset_label label labels hunks
                rest (i :: seen) (chosen ++ [ch])

/-- The `select_all` loop: mark every selector consumed and apply the path
checks as if for the whole file. -/
def markAllLoop (fn : String → String → Bool) (include_paths exclude_paths : List String)
    (changeset_label : String) (labels : List String) :
    List (Nat × HunkSelector) → List Nat → Except String (List Nat)
  | [], seen => .ok seen
  | (i, s) :: rest, seen =>
    match checkPaths fn include_paths exclude_paths changeset_label s.file labels with
    | .error e => .error e
    | .ok _ => markAllLoop fn include_paths exclude_paths changeset_label labels rest (i :: seen)

/-- The accumulated state of `select_hunks_for_changeset`'s file loop. -/
structure SelState where
  patch_lines : List String
  selected_files : List String
  selected_hunks : Nat
  seen : List Nat
deriving DecidableEq, Repr

/-- Whether the whole-file path is taken for a file: some matching selector
sets `all`, or partial files are disallowed and a bare selector matches. -/
def selectAllCond (fsels : List (Nat × HunkSelector)) (allow_partial_files : Bool) : Bool :=
  fsels.any (fun p => p.2.all_hunks) ||
    (!allow_partial_files && fsels.any (fun p => !p.2.has_filters))

/-- One iteration of the file loop of `select_hunks_for_changeset`. -/
def processFile (fn : String → String → Bool) (include_paths exclude_paths : List String)
    (allow_partial_files : Bool) (changeset_label : String)
    (isels : List (Nat × HunkSelector)) (df : DiffFile) (st : SelState) :
    Except String SelState :=
  let fsels := selectors_for_file isels df
  if fsels.isEmpty then .ok st
  else
    let label := fileLabel df
    let labels := pathLabels df
    if df.is_binary then
      .error (changeset_label ++ ": " ++ label ++ " is binary; use mode=patch for binary files.")
    else if df.hunks.isEmpty then
      .error (changeset_label ++ ": " ++ label ++ " has no hunks available to select.")
    else
      let step : Except String (List Nat × List Hunk) :=
        if selectAllCond fsels allow_partial_files then
          (markAllLoop fn include_paths exclude_paths changeset_label labels fsels st.seen).map
            (fun seen => (seen, df.hunks))
        else
          selectorLoop fn include_paths exclude_paths changeset_label label labels df.hunks
            fsels st.seen []
      match step with
      | .error e => .error e
      | .ok (seen, chosen) =>
        if allow_partial_files = false ∧ chosen.length ≠ df.hunks.length then
          .error (changeset_label ++ ": " ++ label ++
            " requires all hunks when allow_partial_files=false.")
        else if chosen.isEmpty then
          .ok { st with seen := seen }
        else
          .ok { patch_lines := st.patch_lines ++ df.header_lines ++ chosen.flatMap Hunk.lines
                selected_files := st.selected_files ++ [label]
                selected_hunks := st.selected_hunks + chosen.length
                seen := seen }

/-- The file loop of `select_hunks_for_changeset`. -/
def processFiles (fn : String → String → Bool) (include_paths exclude_paths : List String)
    (allow_partial_files : Bool) (changeset_label : String)
    (isels : List (Nat × HunkSelector)) : List DiffFile → SelState → Except String SelState
  | [], st => .ok st
  | df :: rest, st =>
    match processFile fn include_paths exclude_paths allow_partial_files changeset_label
        isels df st with
    | .error e => .error e
    | .ok st' =>
      processFiles fn include_paths exclude_paths allow_partial_files changeset_label
        isels rest st'

/-- Lexicographic order on strings, as Python compares them. -/
def charListLe : List Char → List Char → Bool
  | [], _ => true
  | _ :: _, [] => false
  | a :: as, b :: bs => if a < b then true else if b < a then false else charListLe as bs

/-- Insert into a sorted list of strings. -/
def insertSortedStr (x : String) : List String → List String
  | [] => [x]
  | y :: ys => if charListLe x.data y.data then x :: y :: ys else y :: insertSortedStr x ys

/-- Python `sorted(set(xs))` for strings: deduplicate, then sort. -/
def sortedDedup (xs : List String) : List String :=
  xs.eraseDups.foldr insertSortedStr []

/-- The initial accumulator of the file loop. -/
def initialSelState : SelState := ⟨[], [], 0, []⟩

/-- The files of the selectors never marked consumed (`missing` in the
source). -/
def missingSelectors (selectors : List HunkSelector) (seen : List Nat) : List String :=
  ((enumSel 0 selectors).filter (fun p => !(seen.contains p.1))).map (fun p => p.2.file)

/-- `select_hunks_for_changeset`: resolve the selectors against the parsed
diff and assemble the chosen hunks into a patch.  `fn` is the external
`fnmatch.fnmatch` collaborator. -/
def select_hunks_for_changeset (fn : String → String → Bool) (diff_files : List DiffFile)
    (selectors : List HunkSelector) (include_paths exclude_paths : List String)
    (allow_partial_files : Bool) (changeset_label : String) : Except String SelectedPatch :=
  if selectors.isEmpty then
    .error (changeset_label ++ ": hunk_selectors must be non-empty.")
  else
    match processFiles fn include_paths exclude_paths allow_partial_files changeset_label
        (enumSel 0 selectors) diff_files initialSelState with
    | .error e => .error e
    | .ok st =>
      let missing := missingSelectors selectors st.seen
      if ¬ missing.isEmpty then
        .error (changeset_label ++ ": selector file(s) not found in diff: " ++
          String.intercalate ", " (sortedDedup missing) ++ ".")
      else if st.selected_files.isEmpty then
        .error (changeset_label ++ ": no hunks selected for this changeset.")
      else
        .ok { text := String.intercalate "\n" st.patch_lines ++ "\n"
              files := st.selected_files.length
              hunks := st.selected_hunks
              file_labels := st.selected_files }

/-- `plan_checks._warn_old_path_selectors`: the rename map built from the
diff, a Python dict keyed by old path (later entries override earlier
ones). -/
def renamePairs (diff_files : List DiffFile) : List (String × String) :=
  diff_files.foldl
    (fun m df =>
      match df.old_path, df.new_path with
      | some o, some n => if o != "" && n != "" && o != n then m ++ [(o, n)] else m
      | _, _ => m)
    []

/-- Dict lookup with last-insert-wins semantics. -/
def renameLookup (m : List (String × String)) (k : String) : Option String :=
  (m.reverse.find? (fun p => p.1 == k)).map (fun p => p.2)

/-- The warning text emitted for a selector that references a pre-rename
path. -/
def oldPathWarning (index : Nat) (sfile new_path : String) : String :=
  "Changeset " ++ toString index ++ ": selector references old path " ++ sfile ++
    "; prefer new path " ++ new_path ++ " for stability."

/-- `plan_checks._warn_old_path_selectors`: the warnings appended for
selectors that still reference a pre-rename path. -/
def warn_old_path_selectors (diff_files : List DiffFile) (selectors : List HunkSelector)
    (index : Nat) : List String :=
  let renames := renamePairs diff_files
  selectors.filterMap fun s =>
    (renameLookup renames s.file).map (fun np => oldPathWarning index s.file np)

/-- The parser scan is positioned at a file boundary: the remaining input
is exhausted or begins with a `diff --git` line. -/
def AtBoundary : List String → Prop
  | [] => True
  | l :: _ => pystartswith l "diff --git " = true

/-- The parser scan is positioned where only a file or hunk boundary can
follow. -/
def AtBoundaryOrHunk : List String → Prop
  | [] => True
  | l :: _ => pystartswith l "diff --git " = true ∨ pystartswith l "@@ " = true

/-- States of the one-line-at-a-time scan that the literal
loop-with-cursor parser can reach: a binary file only awaits a file
boundary, and a file with open hunks only awaits a file or hunk
boundary. -/
def ReachInv (ls : List String) : Option DiffFile → Prop
  | none => True
  | some c =>
    (c.is_binary = true → AtBoundary ls) ∧ (c.hunks ≠ [] → AtBoundaryOrHunk ls)

/-- The payload invariant of a binary file record relative to the original
line list `L`: no parsed hunks, and the retained block is a verbatim
contiguous run of `L` that starts at the binary marker, contains no file
boundary, and runs up to the next file boundary (or the end of input). -/
def BinRecordOK (L : List String) (df : DiffFile) : Prop :=
  df.hunks = [] ∧
  (∃ bl bls, df.binary_lines = bl :: bls ∧ pystartswith bl "GIT binary patch" = true) ∧
  (∀ x ∈ df.binary_lines, pystartswith x "diff --git " = false) ∧
  (∃ rest, (df.binary_lines ++ rest) <:+ L ∧ AtBoundary rest)

/-- Intermediate-state version of `BinRecordOK` for the file still being
scanned: the retained block followed by the unconsumed input is a suffix
of the original line list. -/
def C8Cur (L ls : List String) : Option DiffFile → Prop
  | none => True
  | some c =>
    (c.is_binary = true →
      c.hunks = [] ∧
      (∃ bl bls, c.binary_lines = bl :: bls ∧ pystartswith bl "GIT binary patch" = true) ∧
      (∀ x ∈ c.binary_lines, pystartswith x "diff --git " = false) ∧
      (c.binary_lines ++ ls) <:+ L) ∧
    (c.is_binary = false → c.binary_lines = [])

/-- A line belongs to a parsed file record's emitted material (header lines
or hunk lines). -/
def fileLineMem (df : DiffFile) (l : String) : Prop :=
  l ∈ df.header_lines ∨ ∃ h ∈ df.hunks, l ∈ h.lines

/-- Intermediate-state version of the line-provenance invariant: every
emitted line of the file under construction is a line of `L`. -/
def CurLinesOK (L : List String) : Option DiffFile → Prop
  | none => True
  | some c => ∀ l, fileLineMem c l → l ∈ L

/-- `IsAssembly dfs out` says `out` is a per-file concatenation, in diff
order, of a file's original header lines followed by the original lines of
a non-empty choice of that file's hunks — the shape
`select_hunks_for_changeset` emits. -/
inductive IsAssembly : List DiffFile → List String → Prop where
  | nil : IsAssembly [] []
  | skip (df : DiffFile) {rest : List DiffFile} {out : List String} :
      IsAssembly rest out → IsAssembly (df :: rest) out
  | cons (df : DiffFile) (chosen : List Hunk) {rest : List DiffFile} {out : List String} :
      chosen ≠ [] → (∀ h ∈ chosen, h ∈ df.hunks) →
      IsAssembly rest out →
      IsAssembly (df :: rest) (df.header_lines ++ chosen.flatMap Hunk.lines ++ out)

/-- Sample hunk touching line 1. -/
def hunkA : Hunk := ⟨"@@ -1 +1 @@", ["@@ -1 +1 @@", "-x", "+a"]⟩

/-- Sample hunk touching line 5. -/
def hunkB : Hunk := ⟨"@@ -5 +5 @@", ["@@ -5 +5 @@", "-y", "+b"]⟩

/-- Sample file with two hunks, in source order `hunkA` then `hunkB`. -/
def dfTwoHunks : DiffFile :=
  ⟨some "f.txt", some "f.txt", ["diff --git a/f.txt b/f.txt"], [hunkA, hunkB], false, []⟩

/-- A selector for `f.txt` carrying only an occurrence index. -/
def occSelector (n : Nat) : HunkSelector := ⟨"f.txt", none, [], [], some n, false, true⟩

/-- A bare selector for `f.txt` (no filters at all). -/
def bareSelector : HunkSelector := ⟨"f.txt", none, [], [], none, false, false⟩

/-- An `all`-flagged selector for `f.txt`. -/
def allSelector : HunkSelector := ⟨"f.txt", none, [], [], none, true, true⟩

/-- A glob matcher that matches nothing (include/exclude lists are empty in
the concrete scenarios, so it is never consulted). -/
def noMatch : String → String → Bool := fun _ _ => false

/-- Sample hunk of the renamed file. -/
def renameHunk : Hunk := ⟨"@@ -2 +2 @@", ["@@ -2 +2 @@", "-u", "+v"]⟩

/-- Sample rename `old.txt` → `new.txt` with one content hunk. -/
def dfRename : DiffFile :=
  ⟨some "old.txt", some "new.txt", ["diff --git a/old.txt b/new.txt"], [renameHunk], false, []⟩

/-- A bare selector referencing the pre-rename path. -/
def oldPathSelector : HunkSelector := ⟨"old.txt", none, [], [], none, false, false⟩

/-- Sample binary file record. -/
def dfBinary : DiffFile :=
  ⟨some "img.bin", some "img.bin", ["diff --git a/img.bin b/img.bin"], [], true,
    ["GIT binary patch", "literal 5"]⟩

/-- A bare selector naming the binary file. -/
def binSelector : HunkSelector := ⟨"img.bin", none, [], [], none, false, false⟩

/-- Sample diff text containing a binary file followed by a text file. -/
def binDiffText : String :=
  "diff --git a/img.bin b/img.bin\nGIT binary patch\nliteral 5\ndiff --git a/t.txt b/t.txt\n@@ -1 +1 @@\n+z\n"

/-- Sample diff text with a single one-hunk text file. -/
def smallDiffText : String :=
  "diff --git a/f.txt b/f.txt\n@@ -1 +1 @@\n-x\n+a\n"

/-- A hunk duplicated byte-for-byte at two positions of a file. -/
def dupHunk : Hunk := ⟨"@@ -1 +1 @@", ["@@ -1 +1 @@", "+a"]⟩

/-- A selector naming a file absent from every sample diff. -/
def absentSelector : HunkSelector := ⟨"zzz.txt", none, [], [], none, false, false⟩

theorem isPrefixOf_head_eq {a b : Char} {as bs xs : List Char}
    (ha : (a :: as).isPrefixOf xs = true) (hb : (b :: bs).isPrefixOf xs = true) : a = b := by
  cases xs with
  | nil => simp [List.isPrefixOf] at ha
  | cons x xs =>
    simp only [List.isPrefixOf, Bool.and_eq_true, beq_iff_eq] at ha hb
    exact ha.1.trans hb.1.symm

theorem marker_not_diff {l : String} (h : pystartswith l "GIT binary patch" = true) :
    pystartswith l "diff --git " = false := by
  by_contra hc
  rw [Bool.not_eq_false] at hc
  have h1 : ('G' :: "IT binary patch".data).isPrefixOf l.data = true := h
  have h2 : ('d' :: "iff --git ".data).isPrefixOf l.data = true := hc
  exact absurd (isPrefixOf_head_eq h1 h2) (by decide)

theorem marker_not_hunk {l : String} (h : pystartswith l "GIT binary patch" = true) :
    pystartswith l "@@ " = false := by
  by_contra hc
  rw [Bool.not_eq_false] at hc
  have h1 : ('G' :: "IT binary patch".data).isPrefixOf l.data = true := h
  have h2 : ('@' :: "@ ".data).isPrefixOf l.data = true := hc
  exact absurd (isPrefixOf_head_eq h1 h2) (by decide)

theorem hunk_not_diff {l : String} (h : pystartswith l "@@ " = true) :
    pystartswith l "diff --git " = false := by
  by_contra hc
  rw [Bool.not_eq_false] at hc
  have h1 : ('@' :: "@ ".data).isPrefixOf l.data = true := h
  have h2 : ('d' :: "iff --git ".data).isPrefixOf l.data = true := hc
  exact absurd (isPrefixOf_head_eq h1 h2) (by decide)

theorem takeUntilFileStart_append : ∀ ls : List String,
    (takeUntilFileStart ls).1 ++ (takeUntilFileStart ls).2 = ls := by
  intro ls
  induction ls with
  | nil => rfl
  | cons l ls ih =>
    by_cases h : pystartswith l "diff --git " = true
    · simp [takeUntilFileStart, h]
    · rw [Bool.not_eq_true] at h
      simpa [takeUntilFileStart, h] using ih

theorem takeUntilFileStart_rest_boundary : ∀ ls : List String,
    AtBoundary (takeUntilFileStart ls).2 := by
  intro ls
  induction ls with
  | nil => trivial
  | cons l ls ih =>
    by_cases h : pystartswith l "diff --git " = true
    · simp [takeUntilFileStart, h, AtBoundary]
    · rw [Bool.not_eq_true] at h
      simpa [takeUntilFileStart, h] using ih

theorem takeUntilFileStart_consumed : ∀ ls : List String, ∀ x ∈ (takeUntilFileStart ls).1,
    pystartswith x "diff --git " = false := by
  intro ls
  induction ls with
  | nil => intro x hx; simp [takeUntilFileStart] at hx
  | cons l ls ih =>
    intro x hx
    by_cases h : pystartswith l "diff --git " = true
    · simp [takeUntilFileStart, h] at hx
    · rw [Bool.not_eq_true] at h
      simp only [takeUntilFileStart, h, Bool.false_eq_true, if_false, List.mem_cons] at hx
      rcases hx with h1 | h1
      · subst h1; exact h
      · exact ih x h1

theorem takeUntilFileStart_rest_length : ∀ ls : List String,
    (takeUntilFileStart ls).2.length ≤ ls.length := by
  intro ls
  have h := congrArg List.length (takeUntilFileStart_append ls)
  simp only [List.length_append] at h
  omega

theorem takeHunkBody_append : ∀ ls : List String,
    (takeHunkBody ls).1 ++ (takeHunkBody ls).2 = ls := by
  intro ls
  induction ls with
  | nil => rfl
  | cons l ls ih =>
    by_cases h : (pystartswith l "diff --git " || pystartswith l "@@ ") = true
    · simp [takeHunkBody, h]
    · rw [Bool.not_eq_true] at h
      simpa [takeHunkBody, h] using ih

theorem takeHunkBody_rest_boundary : ∀ ls : List String,
    AtBoundaryOrHunk (takeHunkBody ls).2 := by
  intro ls
  induction ls with
  | nil => trivial
  | cons l ls ih =>
    by_cases h : (pystartswith l "diff --git " || pystartswith l "@@ ") = true
    · simp only [takeHunkBody, h, if_true]
      simpa [AtBoundaryOrHunk] using h
    · rw [Bool.not_eq_true] at h
      simpa [takeHunkBody, h] using ih

theorem takeHunkBody_rest_length : ∀ ls : List String,
    (takeHunkBody ls).2.length ≤ ls.length := by
  intro ls
  have h := congrArg List.length (takeHunkBody_append ls)
  simp only [List.length_append] at h
  omega

theorem appendLineLast_concat : ∀ (hs : List Hunk) (h : Hunk) (l : String),
    appendLineLast (hs ++ [h]) l = hs ++ [⟨h.header, h.lines ++ [l]⟩] := by
  intro hs
  induction hs with
  | nil => intro h l; rfl
  | cons h' hs ih =>
    intro h l
    have key : appendLineLast (h' :: (hs ++ [h])) l = h' :: appendLineLast (hs ++ [h]) l := by
      rcases hq : hs ++ [h] with _ | ⟨x, xs⟩
      · exact absurd hq (by simp)
      · rfl
    rw [List.cons_append, key, ih, List.cons_append]

theorem parseLines_binary : ∀ (ls : List String) (c : DiffFile), c.is_binary = true →
    parseLines ls (some c) = parseLines (takeUntilFileStart ls).2
      (some { c with binary_lines := c.binary_lines ++ (takeUntilFileStart ls).1 }) := by
  intro ls
  induction ls with
  | nil => intro c hc; simp [takeUntilFileStart]
  | cons l ls ih =>
    intro c hc
    by_cases h : pystartswith l "diff --git " = true
    · simp [takeUntilFileStart, h]
    · rw [Bool.not_eq_true] at h
      have step : parseLines (l :: ls) (some c) =
          parseLines ls (some { c with binary_lines := c.binary_lines ++ [l] }) := by
        simp [parseLines, h, hc]
      rw [step, ih _ (by simpa using hc)]
      simp [takeUntilFileStart, h]

theorem parseLines_hunk : ∀ (ls : List String) (c : DiffFile) (hs : List Hunk) (H : Hunk),
    c.is_binary = false → c.hunks = hs ++ [H] →
    parseLines ls (some c) = parseLines (takeHunkBody ls).2
      (some { c with hunks := hs ++ [⟨H.header, H.lines ++ (takeHunkBody ls).1⟩] }) := by
  intro ls
  induction ls with
  | nil =>
    intro c hs H hbin hhunks
    simp [takeHunkBody, ← hhunks]
  | cons l ls ih =>
    intro c hs H hbin hhunks
    by_cases h : pystartswith l "diff --git " = true
    · simp [takeHunkBody, h, ← hhunks]
    · by_cases h2 : pystartswith l "@@ " = true
      · simp [takeHunkBody, h, h2, ← hhunks]
      · rw [Bool.not_eq_true] at h h2
        have hne : ¬ c.hunks.isEmpty = true := by
          simp [hhunks]
        have step : parseLines (l :: ls) (some c) =
            parseLines ls (some { c with hunks := appendLineLast c.hunks l }) := by
          simp [parseLines, h, h2, hbin, hne]
        rw [step, hhunks, appendLineLast_concat,
          ih _ hs ⟨H.header, H.lines ++ [l]⟩ (by simpa using hbin) (by simp)]
        simp [takeHunkBody, h, h2]

theorem parseLoopFuel_complete_aux : ∀ (n : Nat) (ls : List String) (cur : Option DiffFile),
    ls.length < n → ReachInv ls cur → parseLoopFuel n ls cur = some (parseLines ls cur) := by
  intro n
  induction n with
  | zero => intro ls cur h; omega
  | succ n ih =>
    intro ls cur h hinv
    match ls, cur with
    | [], cur => simp [parseLoopFuel, parseLines]
    | l :: ls, cur =>
      by_cases hd : pystartswith l "diff --git " = true
      · have hrec := ih ls (some (newFileOf l)) (by simp at h; omega)
          (by constructor <;> intro hx <;> simp [newFileOf] at hx)
        simp [parseLoopFuel, parseLines, hd, hrec]
      · rw [Bool.not_eq_true] at hd
        match cur with
        | none =>
          have hrec := ih ls none (by simp at h; omega) trivial
          simp [parseLoopFuel, parseLines, hd, hrec]
        | some c =>
          have hbin : c.is_binary = false := by
            rcases hbv : c.is_binary with _ | _
            · rfl
            · have := hinv.1 hbv
              simp [AtBoundary, hd] at this
          by_cases hm : pystartswith l "GIT binary patch" = true
          · have hhe : c.hunks = [] := by
              rcases hhv : c.hunks with _ | ⟨x, xs⟩
              · rfl
              · have := hinv.2 (by simp [hhv])
                simp [AtBoundaryOrHunk, hd, marker_not_hunk hm] at this
            have step : parseLines (l :: ls) (some c) =
                parseLines ls (some { c with is_binary := true, binary_lines := c.binary_lines ++ [l] }) := by
              simp [parseLines, hd, hbin, hhe, hm]
            have hrec := ih (takeUntilFileStart ls).2
              (some { c with is_binary := true, binary_lines := c.binary_lines ++ (l :: (takeUntilFileStart ls).1) })
              (by have := takeUntilFileStart_rest_length ls; simp at h; omega)
              (by
                refine ⟨fun _ => takeUntilFileStart_rest_boundary ls, fun hx => ?_⟩
                simp [hhe] at hx)
            have tu : takeUntilFileStart (l :: ls) =
                (l :: (takeUntilFileStart ls).1, (takeUntilFileStart ls).2) := by
              simp [takeUntilFileStart, hd]
            rw [step, parseLines_binary _ _ (by simp)]
            simp only [parseLoopFuel, hd, Bool.false_eq_true, if_false, hm, if_true, tu]
            rw [hrec]
            simp [List.append_assoc]
          · rw [Bool.not_eq_true] at hm
            by_cases hh : pystartswith l "@@ " = true
            · have step : parseLines (l :: ls) (some c) =
                  parseLines ls (some { c with hunks := c.hunks ++ [⟨l, [l]⟩] }) := by
                rcases hhv : c.hunks with _ | ⟨x, xs⟩
                · simp [parseLines, hd, hbin, hhv, hm, hh]
                · simp [parseLines, hd, hbin, hhv, hh]
              have hrec := ih (takeHunkBody ls).2
                (some { c with hunks := c.hunks ++ [⟨l, l :: (takeHunkBody ls).1⟩] })
                (by have := takeHunkBody_rest_length ls; simp at h; omega)
                (by
                  refine ⟨fun hx => absurd (show c.is_binary = true by simpa using hx)
                    (by simp [hbin]), fun _ => takeHunkBody_rest_boundary ls⟩)
              rw [step, parseLines_hunk _ _ c.hunks ⟨l, [l]⟩ (by simpa using hbin) (by simp)]
              simp only [parseLoopFuel, hd, Bool.false_eq_true, if_false, hm, hh, if_true]
              rw [hrec]
              simp
            · rw [Bool.not_eq_true] at hh
              have hhe : c.hunks = [] := by
                rcases hhv : c.hunks with _ | ⟨x, xs⟩
                · rfl
                · have := hinv.2 (by simp [hhv])
                  simp [AtBoundaryOrHunk, hd, hh] at this
              have step : parseLines (l :: ls) (some c) =
                  parseLines ls (some { c with header_lines := c.header_lines ++ [l] }) := by
                simp [parseLines, hd, hbin, hhe, hm, hh]
              have hrec := ih ls (some { c with header_lines := c.header_lines ++ [l] })
                (by simp at h; omega)
                (by
                  refine ⟨fun hx => ?_, fun hx => ?_⟩
                  · simp [hbin] at hx
                  · simp [hhe] at hx)
              simp only [parseLoopFuel, hd, Bool.false_eq_true, if_false, hm, hh, if_true]
              rw [hrec, step]

/-- C9: for every input string — including malformed, truncated, or
non-diff text — the parser's literal scanning loop `parseLoopFuel`
terminates within a fuel budget of one more than the number of input lines
and returns the parsed record list `parse_unified_diff d`; parsing is a
total function with no error outcome, so failure is never reported to the
caller. -/
theorem c9_parser_total_no_failure (d : String) :
    parseLoopFuel ((pysplitlines d).length + 1) (pysplitlines d) none =
      some (parse_unified_diff d) :=
  parseLoopFuel_complete_aux _ _ _ (Nat.lt_succ_self _) trivial

theorem parseLines_binRecordOK : ∀ (ls : List String) (cur : Option DiffFile) (L : List String),
    ls <:+ L → C8Cur L ls cur →
    ∀ df ∈ parseLines ls cur, df.is_binary = true → BinRecordOK L df := by
  intro ls
  induction ls with
  | nil =>
    intro cur L hsuf hcur df hdf hbin
    match cur with
    | none => simp [parseLines, flushOpt] at hdf
    | some c =>
      simp [parseLines, flushOpt] at hdf
      subst hdf
      obtain ⟨h1, h2, h3, h4⟩ := hcur.1 hbin
      exact ⟨h1, h2, h3, [], h4, trivial⟩
  | cons l ls ih =>
    intro cur L hsuf hcur df hdf hbin
    have hsuf' : ls <:+ L := (List.suffix_cons l ls).trans hsuf
    by_cases hd : pystartswith l "diff --git " = true
    · rw [show parseLines (l :: ls) cur = flushOpt cur ++ parseLines ls (some (newFileOf l))
        from by simp [parseLines, hd]] at hdf
      rcases List.mem_append.mp hdf with hdf | hdf
      · match cur with
        | none => simp [flushOpt] at hdf
        | some c =>
          simp [flushOpt] at hdf
          subst hdf
          obtain ⟨h1, h2, h3, h4⟩ := hcur.1 hbin
          exact ⟨h1, h2, h3, l :: ls, h4, hd⟩
      · have hc8 : C8Cur L ls (some (newFileOf l)) := by
          exact ⟨fun hx => by simp [newFileOf] at hx, fun _ => by simp [newFileOf]⟩
        exact ih (some (newFileOf l)) L hsuf' hc8 df hdf hbin
    · rw [Bool.not_eq_true] at hd
      match cur with
      | none =>
        rw [show parseLines (l :: ls) none = parseLines ls none
          from by simp [parseLines, hd]] at hdf
        exact ih none L hsuf' trivial df hdf hbin
      | some c =>
        rcases hbv : c.is_binary with _ | _
        · by_cases hne : c.hunks.isEmpty = true
          · by_cases hm : pystartswith l "GIT binary patch" = true
            · have hbl : c.binary_lines = [] := hcur.2 hbv
              rw [show parseLines (l :: ls) (some c) =
                  parseLines ls (some { c with is_binary := true, binary_lines := c.binary_lines ++ [l] })
                from by simp [parseLines, hd, hbv, hne, hm]] at hdf
              have hc8 : C8Cur L ls
                  (some { c with is_binary := true, binary_lines := c.binary_lines ++ [l] }) := by
                refine ⟨fun _ => ⟨by simpa using List.isEmpty_iff.mp hne,
                  ⟨l, [], by simp [hbl], hm⟩, ?_, ?_⟩, fun hx => by simp at hx⟩
                · intro x hx
                  simp [hbl] at hx
                  subst hx
                  exact hd
                · simpa [hbl] using hsuf
              exact ih (some { c with is_binary := true, binary_lines := c.binary_lines ++ [l] })
                L hsuf' hc8 df hdf hbin
            · by_cases hh : pystartswith l "@@ " = true
              · rw [show parseLines (l :: ls) (some c) =
                    parseLines ls (some { c with hunks := c.hunks ++ [⟨l, [l]⟩] })
                  from by simp [parseLines, hd, hbv, hne, hm, hh]] at hdf
                have hc8 : C8Cur L ls (some { c with hunks := c.hunks ++ [⟨l, [l]⟩] }) := by
                  exact ⟨fun hx => by simp [hbv] at hx, fun _ => by simpa using hcur.2 hbv⟩
                exact ih (some { c with hunks := c.hunks ++ [⟨l, [l]⟩] }) L hsuf' hc8 df hdf hbin
              · rw [show parseLines (l :: ls) (some c) =
                    parseLines ls (some { c with header_lines := c.header_lines ++ [l] })
                  from by simp [parseLines, hd, hbv, hne, hm, hh]] at hdf
                have hc8 : C8Cur L ls (some { c with header_lines := c.header_lines ++ [l] }) := by
                  exact ⟨fun hx => by simp [hbv] at hx, fun _ => by simpa using hcur.2 hbv⟩
                exact ih (some { c with header_lines := c.header_lines ++ [l] }) L hsuf' hc8 df hdf hbin
          · by_cases hh : pystartswith l "@@ " = true
            · rw [show parseLines (l :: ls) (some c) =
                  parseLines ls (some { c with hunks := c.hunks ++ [⟨l, [l]⟩] })
                from by simp [parseLines, hd, hbv, hne, hh]] at hdf
              have hc8 : C8Cur L ls (some { c with hunks := c.hunks ++ [⟨l, [l]⟩] }) := by
                exact ⟨fun hx => by simp [hbv] at hx, fun _ => by simpa using hcur.2 hbv⟩
              exact ih (some { c with hunks := c.hunks ++ [⟨l, [l]⟩] }) L hsuf' hc8 df hdf hbin
            · rw [show parseLines (l :: ls) (some c) =
                  parseLines ls (some { c with hunks := appendLineLast c.hunks l })
                from by simp [parseLines, hd, hbv, hne, hh]] at hdf
              have hc8 : C8Cur L ls (some { c with hunks := appendLineLast c.hunks l }) := by
                exact ⟨fun hx => by simp [hbv] at hx, fun _ => by simpa using hcur.2 hbv⟩
              exact ih (some { c with hunks := appendLineLast c.hunks l }) L hsuf' hc8 df hdf hbin
        · obtain ⟨h1, h2, h3, h4⟩ := hcur.1 hbv
          rw [show parseLines (l :: ls) (some c) =
              parseLines ls (some { c with binary_lines := c.binary_lines ++ [l] })
            from by simp [parseLines, hd, hbv]] at hdf
          have hc8 : C8Cur L ls (some { c with binary_lines := c.binary_lines ++ [l] }) := by
            refine ⟨fun _ => ⟨by simpa using h1, ?_, ?_, ?_⟩, fun hx => by simp [hbv] at hx⟩
            · obtain ⟨bl, bls, hb, hbm⟩ := h2
              exact ⟨bl, bls ++ [l], by simp [hb], hbm⟩
            · intro x hx
              simp only [DiffFile.binary_lines, List.mem_append, List.mem_singleton] at hx
              rcases hx with hx | hx
              · exact h3 x hx
              · subst hx; exact hd
            · simpa [List.append_assoc] using h4
          exact ih (some { c with binary_lines := c.binary_lines ++ [l] }) L hsuf' hc8 df hdf hbin

/-- C8: for every input diff text, every parsed file record flagged binary
has an empty hunk list, and its retained payload block is a verbatim
contiguous run of the input's lines that starts at the `GIT binary patch`
marker, contains no `diff --git` boundary, and extends up to the next file
boundary (or the end of the input). -/
theorem c8_binary_record (d : String) (df : DiffFile) (hdf : df ∈ parse_unified_diff d)
    (hbin : df.is_binary = true) : BinRecordOK (pysplitlines d) df :=
  parseLines_binRecordOK (pysplitlines d) none (pysplitlines d) (List.suffix_refl _)
    trivial df hdf hbin

/-- Witness for C8 at a concrete diff containing a binary file. -/
theorem c8_binary_record_witness : BinRecordOK (pysplitlines binDiffText) dfBinary :=
  c8_binary_record binDiffText dfBinary (by decide) rfl

theorem mem_enumSel_of_mem : ∀ (sels : List HunkSelector) (s : HunkSelector) (n : Nat),
    s ∈ sels → ∃ i, (i, s) ∈ enumSel n sels := by
  intro sels
  induction sels with
  | nil => intro s n hs; simp at hs
  | cons t ts ih =>
    intro s n hs
    rcases List.mem_cons.mp hs with h | h
    · exact ⟨n, by simp [enumSel, h]⟩
    · obtain ⟨i, hi⟩ := ih s (n + 1) h
      exact ⟨i, by simp [enumSel, hi]⟩

theorem snd_mem_of_mem_enumSel : ∀ (sels : List HunkSelector) (n i : Nat) (s : HunkSelector),
    (i, s) ∈ enumSel n sels → s ∈ sels := by
  intro sels
  induction sels with
  | nil => intro n i s h; simp [enumSel] at h
  | cons t ts ih =>
    intro n i s h
    rcases List.mem_cons.mp h with h | h
    · simp at h
      simp [h.2]
    · exact List.mem_cons_of_mem _ (ih (n + 1) i s h)

theorem enumSel_idx_ge : ∀ (sels : List HunkSelector) (n i : Nat) (s : HunkSelector),
    (i, s) ∈ enumSel n sels → n ≤ i := by
  intro sels
  induction sels with
  | nil => intro n i s h; simp [enumSel] at h
  | cons t ts ih =>
    intro n i s h
    rcases List.mem_cons.mp h with h | h
    · simp at h
      omega
    · have := ih (n + 1) i s h
      omega

theorem enumSel_idx_inj : ∀ (sels : List HunkSelector) (n i : Nat) (a b : HunkSelector),
    (i, a) ∈ enumSel n sels → (i, b) ∈ enumSel n sels → a = b := by
  intro sels
  induction sels with
  | nil => intro n i a b ha hb; simp [enumSel] at ha
  | cons t ts ih =>
    intro n i a b ha hb
    rcases List.mem_cons.mp ha with ha | ha <;> rcases List.mem_cons.mp hb with hb | hb
    · simp at ha hb
      rw [ha.2, hb.2]
    · simp at ha
      have := enumSel_idx_ge ts (n + 1) i b hb
      omega
    · simp at hb
      have := enumSel_idx_ge ts (n + 1) i a ha
      omega
    · exact ih (n + 1) i a b ha hb

theorem selectorLoop_err_of_ambig
    (fn : String → String → Bool) (incl excl : List String) (cl label : String)
    (labels : List String) (hunks : List Hunk) :
    ∀ (fsels : List (Nat × HunkSelector)) (seen : List Nat) (chosen : List Hunk),
    (∃ p ∈ fsels, p.2.occurrence = none ∧ 1 < (candidateHunks p.2 hunks).length) →
    ∃ e, selectorLoop fn incl excl cl label labels hunks fsels seen chosen = .error e := by
  intro fsels
  induction fsels with
  | nil => intro seen chosen h; simp at h
  | cons p rest ih =>
    intro seen chosen hex
    obtain ⟨i, s⟩ := p
    rcases hchk : checkPaths fn incl excl cl s.file labels with e | u
    · exact ⟨e, by simp [selectorLoop, hchk]⟩
    · by_cases hemp : (candidateHunks s hunks).isEmpty = true
      · exact ⟨cl ++ ": selector for " ++ label ++ " matched no hunks.",
          by simp [selectorLoop, hchk, hemp]⟩
      · rcases hocc : s.occurrence with _ | n
        · by_cases hlen : (candidateHunks s hunks).length > 1
          · exact ⟨cl ++ ": selector for " ++ label ++
              " matched multiple hunks; add occurrence to disambiguate.",
              by simp [selectorLoop, hchk, hemp, hocc, hlen]⟩
          · have hrest : ∃ p ∈ rest, p.2.occurrence = none ∧
                1 < (candidateHunks p.2 hunks).length := by
              obtain ⟨q, hq, hq1, hq2⟩ := hex
              rcases List.mem_cons.mp hq with hq | hq
              · subst hq
                simp at hq1 hq2
                omega
              · exact ⟨q, hq, hq1, hq2⟩
            by_cases hdup : (candidateHunks s hunks)[0]?.getD defaultHunk ∈ chosen
            · obtain ⟨e, he⟩ := ih (i :: seen) chosen hrest
              exact ⟨e, by simp [selectorLoop, hchk, hemp, hocc, hlen, hdup, he]⟩
            · obtain ⟨e, he⟩ := ih (i :: seen)
                (chosen ++ [(candidateHunks s hunks)[0]?.getD defaultHunk]) hrest
              exact ⟨e, by simp [selectorLoop, hchk, hemp, hocc, hlen, hdup, he]⟩
        · have hrest : ∃ p ∈ rest, p.2.occurrence = none ∧
              1 < (candidateHunks p.2 hunks).length := by
            obtain ⟨q, hq, hq1, hq2⟩ := hex
            rcases List.mem_cons.mp hq with hq | hq
            · subst hq
              simp [hocc] at hq1
            · exact ⟨q, hq, hq1, hq2⟩
          by_cases hlen : n > (candidateHunks s hunks).length
          · exact ⟨cl ++ ": selector for " ++ label ++ " occurrence " ++ toString n ++
              " exceeds " ++ toString (candidateHunks s hunks).length ++ " matches.",
              by simp [selectorLoop, hchk, hemp, hocc, hlen]⟩
          · by_cases hdup : (candidateHunks s hunks)[n - 1]?.getD defaultHunk ∈ chosen
            · obtain ⟨e, he⟩ := ih (i :: seen) chosen hrest
              exact ⟨e, by simp [selectorLoop, hchk, hemp, hocc, hlen, hdup, he]⟩
            · obtain ⟨e, he⟩ := ih (i :: seen)
                (chosen ++ [(candidateHunks s hunks)[n - 1]?.getD defaultHunk]) hrest
              exact ⟨e, by simp [selectorLoop, hchk, hemp, hocc, hlen, hdup, he]⟩

theorem processFile_binary_error
    (fn : String → String → Bool) (incl excl : List String) (ap : Bool) (cl : String)
    (isels : List (Nat × HunkSelector)) (df : DiffFile) (st : SelState)
    (h1 : selectors_for_file isels df ≠ []) (h2 : df.is_binary = true) :
    processFile fn incl excl ap cl isels df st =
      .error (cl ++ ": " ++ fileLabel df ++ " is binary; use mode=patch for binary files.") := by
  have hne : (selectors_for_file isels df).isEmpty = false := by
    rw [List.isEmpty_eq_false]
    exact h1
  simp [processFile, hne, h2]

theorem processFile_no_hunks_error
    (fn : String → String → Bool) (incl excl : List String) (ap : Bool) (cl : String)
    (isels : List (Nat × HunkSelector)) (df : DiffFile) (st : SelState)
    (h1 : selectors_for_file isels df ≠ []) (h2 : df.is_binary = false)
    (h3 : df.hunks = []) :
    processFile fn incl excl ap cl isels df st =
      .error (cl ++ ": " ++ fileLabel df ++ " has no hunks available to select.") := by
  have hne : (selectors_for_file isels df).isEmpty = false := by
    rw [List.isEmpty_eq_false]
    exact h1
  simp [processFile, hne, h2, h3]

theorem processFile_err_of_loop_err
    (fn : String → String → Bool) (incl excl : List String) (ap : Bool) (cl : String)
    (isels : List (Nat × HunkSelector)) (df : DiffFile) (st : SelState)
    (h1 : selectors_for_file isels df ≠ []) (h2 : df.is_binary = false)
    (h3 : ¬ df.hunks.isEmpty = true)
    (h4 : selectAllCond (selectors_for_file isels df) ap = false)
    (h5 : ∃ e, selectorLoop fn incl excl cl (fileLabel df) (pathLabels df) df.hunks
      (selectors_for_file isels df) st.seen [] = .error e) :
    ∃ e, processFile fn incl excl ap cl isels df st = .error e := by
  have hne : (selectors_for_file isels df).isEmpty = false := by
    rw [List.isEmpty_eq_false]
    exact h1
  obtain ⟨e, he⟩ := h5
  exact ⟨e, by simp [processFile, hne, h2, h3, h4, he]⟩

theorem processFiles_err_of_mem
    (fn : String → String → Bool) (incl excl : List String) (ap : Bool) (cl : String)
    (isels : List (Nat × HunkSelector)) (df : DiffFile) :
    ∀ (dfs : List DiffFile) (st : SelState), df ∈ dfs →
    (∀ st' : SelState, ∃ e, processFile fn incl excl ap cl isels df st' = .error e) →
    ∃ e, processFiles fn incl excl ap cl isels dfs st = .error e := by
  intro dfs
  induction dfs with
  | nil => intro st hmem _; simp at hmem
  | cons d rest ih =>
    intro st hmem hf
    rcases List.mem_cons.mp hmem with hmem | hmem
    · subst hmem
      obtain ⟨e, he⟩ := hf st
      exact ⟨e, by simp [processFiles, he]⟩
    · rcases hp : processFile fn incl excl ap cl isels d st with e | st'
      · exact ⟨e, by simp [processFiles, hp]⟩
      · obtain ⟨e, he⟩ := ih st' hmem hf
        exact ⟨e, by simp [processFiles, hp, he]⟩

theorem select_err_of_processFiles_err
    (fn : String → String → Bool) (diff_files : List DiffFile) (selectors : List HunkSelector)
    (incl excl : List String) (ap : Bool) (cl : String)
    (h1 : selectors ≠ [])
    (h2 : ∃ e, processFiles fn incl excl ap cl (enumSel 0 selectors) diff_files
      initialSelState = .error e) :
    ∃ e, select_hunks_for_changeset fn diff_files selectors incl excl ap cl = .error e := by
  have hne : selectors.isEmpty = false := by
    rw [List.isEmpty_eq_false]
    exact h1
  obtain ⟨e, he⟩ := h2
  exact ⟨e, by simp [select_hunks_for_changeset, hne, he]⟩

theorem mem_selectors_for_file {isels : List (Nat × HunkSelector)} {df : DiffFile}
    {p : Nat × HunkSelector} (hp : p ∈ isels) (hm : selectorMatchesFile p.2 df = true) :
    p ∈ selectors_for_file isels df :=
  List.mem_filter.mpr ⟨hp, hm⟩

theorem checkPaths_nil_ok (fn : String → String → Bool) (cl sfile : String)
    (labels : List String) : checkPaths fn [] [] cl sfile labels = .ok () := by
  simp [checkPaths]

theorem selectAllCond_eq_false {sels : List HunkSelector} {df : DiffFile} {ap : Bool}
    (hnoall : ∀ t ∈ sels, selectorMatchesFile t df = true → t.all_hunks = false)
    (hnobare : ap = true ∨ ∀ t ∈ sels, selectorMatchesFile t df = true → t.has_filters = true) :
    selectAllCond (selectors_for_file (enumSel 0 sels) df) ap = false := by
  have h1 : (selectors_for_file (enumSel 0 sels) df).any (fun p => p.2.all_hunks) = false := by
    rw [List.any_eq_false]
    intro p hp
    have hmem := List.mem_filter.mp hp
    have hsm : p.2 ∈ sels := snd_mem_of_mem_enumSel sels 0 p.1 p.2 (by simpa using hmem.1)
    simp [hnoall p.2 hsm hmem.2]
  rcases hnobare with hap | hbare
  · simp [selectAllCond, h1, hap]
  · have h2 : (selectors_for_file (enumSel 0 sels) df).any (fun p => !p.2.has_filters) = false := by
      rw [List.any_eq_false]
      intro p hp
      have hmem := List.mem_filter.mp hp
      have hsm : p.2 ∈ sels := snd_mem_of_mem_enumSel sels 0 p.1 p.2 (by simpa using hmem.1)
      simp [hbare p.2 hsm hmem.2]
    simp [selectAllCond, h1, h2]

theorem hunks_ne_empty_of_candidates {s : HunkSelector} {hunks : List Hunk}
    (h : 1 < (candidateHunks s hunks).length) : ¬ hunks.isEmpty = true := by
  intro hh
  rw [List.isEmpty_iff] at hh
  subst hh
  have hsub : List.Sublist (candidateHunks s []) [] := List.filter_sublist []
  rw [List.sublist_nil.mp hsub] at h
  simp at h

/-- C3: a selector without an occurrence index whose filters match more
than one hunk of a targeted file makes `select_hunks_for_changeset` fail
(no output is ever produced), and the resolution step for that selector
alone yields exactly the ambiguity error demanding an occurrence index —
a candidate is never silently picked. -/
theorem c3_ambiguity_rejected
    (fn : String → String → Bool) (dfs : List DiffFile) (sels : List HunkSelector)
    (incl excl : List String) (ap : Bool) (cl : String) (df : DiffFile) (s : HunkSelector)
    (hdf : df ∈ dfs) (hs : s ∈ sels) (hm : selectorMatchesFile s df = true)
    (hocc : s.occurrence = none) (hcand : 1 < (candidateHunks s df.hunks).length)
    (hnoall : ∀ t ∈ sels, selectorMatchesFile t df = true → t.all_hunks = false)
    (hnobare : ap = true ∨ ∀ t ∈ sels, selectorMatchesFile t df = true →
      t.has_filters = true) :
    (∃ e, select_hunks_for_changeset fn dfs sels incl excl ap cl = .error e) ∧
    (∀ (i : Nat) (seen : List Nat) (chosen : List Hunk),
      selectorLoop fn [] [] cl (fileLabel df) (pathLabels df) df.hunks [(i, s)] seen chosen =
        .error (cl ++ ": selector for " ++ fileLabel df ++
          " matched multiple hunks; add occurrence to disambiguate.")) := by
  obtain ⟨i, hi⟩ := mem_enumSel_of_mem sels s 0 hs
  have hmemf : (i, s) ∈ selectors_for_file (enumSel 0 sels) df := mem_selectors_for_file hi hm
  constructor
  · refine select_err_of_processFiles_err fn dfs sels incl excl ap cl
      (List.ne_nil_of_mem hs) ?_
    refine processFiles_err_of_mem fn incl excl ap cl (enumSel 0 sels) df dfs
      initialSelState hdf ?_
    intro st'
    rcases hbv : df.is_binary with _ | _
    · refine processFile_err_of_loop_err fn incl excl ap cl (enumSel 0 sels) df st'
        (List.ne_nil_of_mem hmemf) hbv (hunks_ne_empty_of_candidates hcand)
        (selectAllCond_eq_false hnoall hnobare) ?_
      exact selectorLoop_err_of_ambig fn incl excl cl (fileLabel df) (pathLabels df)
        df.hunks _ st'.seen [] ⟨(i, s), hmemf, hocc, hcand⟩
    · exact ⟨_, processFile_binary_error fn incl excl ap cl _ df st'
        (List.ne_nil_of_mem hmemf) hbv⟩
  · intro j seen chosen
    have hemp : ¬ (candidateHunks s df.hunks).isEmpty = true := by
      intro hh
      rw [List.isEmpty_iff] at hh
      rw [hh] at hcand
      simp at hcand
    simp [selectorLoop, checkPaths_nil_ok, hemp, hocc, hcand]

/-- Witness for C3: a file with two hunks and a bare selector (filters
match both hunks, no occurrence index). -/
theorem c3_ambiguity_rejected_witness :
    (∃ e, select_hunks_for_changeset noMatch [dfTwoHunks] [bareSelector] [] [] true "cs" =
      .error e) ∧
    (∀ (i : Nat) (seen : List Nat) (chosen : List Hunk),
      selectorLoop noMatch [] [] "cs" (fileLabel dfTwoHunks) (pathLabels dfTwoHunks)
        dfTwoHunks.hunks [(i, bareSelector)] seen chosen =
        .error ("cs" ++ ": selector for " ++ fileLabel dfTwoHunks ++
          " matched multiple hunks; add occurrence to disambiguate.")) :=
  c3_ambiguity_rejected noMatch [dfTwoHunks] [bareSelector] [] [] true "cs" dfTwoHunks
    bareSelector (by simp) (by simp) (by decide) rfl (by decide) (by decide) (Or.inl rfl)

/-- C6: a selector targeting a binary-flagged file makes
`select_hunks_for_changeset` fail, and the file-processing step reports the
hard error directing the caller to whole-file replacement (`mode=patch`),
regardless of the selector's filter fields. -/
theorem c6_binary_rejected
    (fn : String → String → Bool) (dfs : List DiffFile) (sels : List HunkSelector)
    (incl excl : List String) (ap : Bool) (cl : String) (df : DiffFile) (s : HunkSelector)
    (hdf : df ∈ dfs) (hs : s ∈ sels) (hm : selectorMatchesFile s df = true)
    (hb : df.is_binary = true) :
    (∃ e, select_hunks_for_changeset fn dfs sels incl excl ap cl = .error e) ∧
    (∀ (isels : List (Nat × HunkSelector)) (st : SelState),
      selectors_for_file isels df ≠ [] →
      processFile fn incl excl ap cl isels df st =
        .error (cl ++ ": " ++ fileLabel df ++ " is binary; use mode=patch for binary files.")) := by
  constructor
  · obtain ⟨i, hi⟩ := mem_enumSel_of_mem sels s 0 hs
    have hmemf : (i, s) ∈ selectors_for_file (enumSel 0 sels) df := mem_selectors_for_file hi hm
    refine select_err_of_processFiles_err fn dfs sels incl excl ap cl
      (List.ne_nil_of_mem hs) ?_
    refine processFiles_err_of_mem fn incl excl ap cl (enumSel 0 sels) df dfs
      initialSelState hdf ?_
    intro st'
    exact ⟨_, processFile_binary_error fn incl excl ap cl _ df st'
      (List.ne_nil_of_mem hmemf) hb⟩
  · intro isels st hne
    exact processFile_binary_error fn incl excl ap cl isels df st hne hb

/-- Witness for C6: a bare selector naming a binary-flagged file. -/
theorem c6_binary_rejected_witness :
    (∃ e, select_hunks_for_changeset noMatch [dfBinary] [binSelector] [] [] true "cs" =
      .error e) ∧
    (∀ (isels : List (Nat × HunkSelector)) (st : SelState),
      selectors_for_file isels dfBinary ≠ [] →
      processFile noMatch [] [] true "cs" isels dfBinary st =
        .error ("cs" ++ ": " ++ fileLabel dfBinary ++
          " is binary; use mode=patch for binary files.")) :=
  c6_binary_rejected noMatch [dfBinary] [binSelector] [] [] true "cs" dfBinary binSelector
    (by simp) (by simp) (by decide) rfl

theorem selectorLoop_seen_sub
    (fn : String → String → Bool) (incl excl : List String) (cl label : String)
    (labels : List String) (hunks : List Hunk) :
    ∀ (fsels : List (Nat × HunkSelector)) (seen : List Nat) (chosen : List Hunk)
      (seen' : List Nat) (chosen' : List Hunk),
    selectorLoop fn incl excl cl label labels hunks fsels seen chosen = .ok (seen', chosen') →
    ∀ j ∈ seen', j ∈ seen ∨ ∃ p ∈ fsels, p.1 = j := by
  intro fsels
  induction fsels with
  | nil =>
    intro seen chosen seen' chosen' h j hj
    simp [selectorLoop] at h
    exact Or.inl (h.1 ▸ hj)
  | cons p rest ih =>
    intro seen chosen seen' chosen' h j hj
    obtain ⟨i, s⟩ := p
    rcases hchk : checkPaths fn incl excl cl s.file labels with e | u
    · simp [selectorLoop, hchk] at h
    · by_cases hemp : (candidateHunks s hunks).isEmpty = true
      · simp [selectorLoop, hchk, hemp] at h
      · have hstep : ∀ ch : Hunk,
            (selectorLoop fn incl excl cl label labels hunks rest (i :: seen)
                (if ch ∈ chosen then chosen else chosen ++ [ch]) = .ok (seen', chosen')) →
            j ∈ seen ∨ ∃ q ∈ (i, s) :: rest, q.1 = j := by
          intro ch hrec
          rcases ih (i :: seen) (if ch ∈ chosen then chosen else chosen ++ [ch])
              seen' chosen' hrec j hj with hj' | ⟨q, hq, hq1⟩
          · rcases List.mem_cons.mp hj' with hj' | hj'
            · exact Or.inr ⟨(i, s), List.mem_cons_self _ _, hj'.symm⟩
            · exact Or.inl hj'
          · exact Or.inr ⟨q, List.mem_cons_of_mem _ hq, hq1⟩
        rcases hocc : s.occurrence with _ | n
        · by_cases hlen : (candidateHunks s hunks).length > 1
          · simp [selectorLoop, hchk, hemp, hocc, hlen] at h
          · refine hstep ((candidateHunks s hunks)[0]?.getD defaultHunk) ?_
            by_cases hdup : (candidateHunks s hunks)[0]?.getD defaultHunk ∈ chosen
            · simpa [selectorLoop, hchk, hemp, hocc, hlen, hdup] using h
            · simpa [selectorLoop, hchk, hemp, hocc, hlen, hdup] using h
        · by_cases hlen : n > (candidateHunks s hunks).length
          · simp [selectorLoop, hchk, hemp, hocc, hlen] at h
          · refine hstep ((candidateHunks s hunks)[n - 1]?.getD defaultHunk) ?_
            by_cases hdup : (candidateHunks s hunks)[n - 1]?.getD defaultHunk ∈ chosen
            · simpa [selectorLoop, hchk, hemp, hocc, hlen, hdup] using h
            · simpa [selectorLoop, hchk, hemp, hocc, hlen, hdup] using h

theorem markAllLoop_seen_sub
    (fn : String → String → Bool) (incl excl : List String) (cl : String)
    (labels : List String) :
    ∀ (fsels : List (Nat × HunkSelector)) (seen seen' : List Nat),
    markAllLoop fn incl excl cl labels fsels seen = .ok seen' →
    ∀ j ∈ seen', j ∈ seen ∨ ∃ p ∈ fsels, p.1 = j := by
  intro fsels
  induction fsels with
  | nil =>
    intro seen seen' h j hj
    simp [markAllLoop] at h
    exact Or.inl (h ▸ hj)
  | cons p rest ih =>
    intro seen seen' h j hj
    obtain ⟨i, s⟩ := p
    rcases hchk : checkPaths fn incl excl cl s.file labels with e | u
    · simp [markAllLoop, hchk] at h
    · rw [show markAllLoop fn incl excl cl labels ((i, s) :: rest) seen =
          markAllLoop fn incl excl cl labels rest (i :: seen)
        from by simp [markAllLoop, hchk]] at h
      rcases ih (i :: seen) seen' h j hj with hj' | ⟨q, hq, hq1⟩
      · rcases List.mem_cons.mp hj' with hj' | hj'
        · exact Or.inr ⟨(i, s), List.mem_cons_self _ _, hj'.symm⟩
        · exact Or.inl hj'
      · exact Or.inr ⟨q, List.mem_cons_of_mem _ hq, hq1⟩

theorem processFile_ok_shape
    {fn : String → String → Bool} {incl excl : List String} {ap : Bool} {cl : String}
    {isels : List (Nat × HunkSelector)} {df : DiffFile} {st st' : SelState}
    (h : processFile fn incl excl ap cl isels df st = .ok st') :
    (selectors_for_file isels df = [] ∧ st' = st) ∨
    (selectors_for_file isels df ≠ [] ∧ df.is_binary = false ∧ ¬ df.hunks.isEmpty = true ∧
      ∃ (seen : List Nat) (chosen : List Hunk),
        ((selectAllCond (selectors_for_file isels df) ap = true ∧
            markAllLoop fn incl excl cl (pathLabels df) (selectors_for_file isels df)
              st.seen = .ok seen ∧ chosen = df.hunks) ∨
         (selectAllCond (selectors_for_file isels df) ap = false ∧
            selectorLoop fn incl excl cl (fileLabel df) (pathLabels df) df.hunks
              (selectors_for_file isels df) st.seen [] = .ok (seen, chosen))) ∧
        ¬ (ap = false ∧ chosen.length ≠ df.hunks.length) ∧
        ((chosen = [] ∧ st' = { st with seen := seen }) ∨
         (chosen ≠ [] ∧ st' =
           { patch_lines := st.patch_lines ++ df.header_lines ++ chosen.flatMap Hunk.lines
             selected_files := st.selected_files ++ [fileLabel df]
             selected_hunks := st.selected_hunks + chosen.length
             seen := seen }))) := by
  by_cases hfe : (selectors_for_file isels df).isEmpty = true
  · left
    refine ⟨List.isEmpty_iff.mp hfe, ?_⟩
    rw [show processFile fn incl excl ap cl isels df st = .ok st
      from by simp [processFile, hfe]] at h
    cases h
    rfl
  · right
    have hfne : selectors_for_file isels df ≠ [] := by
      intro hh
      rw [hh] at hfe
      simp at hfe
    rcases hbv : df.is_binary with _ | _
    · by_cases hhe : df.hunks.isEmpty = true
      · simp [processFile, hfe, hbv, hhe] at h
      · refine ⟨hfne, rfl, hhe, ?_⟩
        by_cases hsa : selectAllCond (selectors_for_file isels df) ap = true
        · rcases hml : markAllLoop fn incl excl cl (pathLabels df)
              (selectors_for_file isels df) st.seen with e | seen
          · simp [processFile, hfe, hbv, hhe, hsa, hml, Except.map] at h
          · refine ⟨seen, df.hunks, Or.inl ⟨hsa, rfl, rfl⟩, ?_, ?_⟩
            · intro hc
              exact absurd rfl hc.2
            · have hred : (if ap = false ∧ df.hunks.length ≠ df.hunks.length then
                    (.error (cl ++ ": " ++ fileLabel df ++ " requires all hunks when allow_partial_files=false.") : Except String SelState)
                  else if df.hunks.isEmpty then .ok { st with seen := seen }
                  else .ok { patch_lines := st.patch_lines ++ df.header_lines ++ df.hunks.flatMap Hunk.lines, selected_files := st.selected_files ++ [fileLabel df], selected_hunks := st.selected_hunks + df.hunks.length, seen := seen }) = .ok st' := by
                rw [← h]
                simp [processFile, hfe, hbv, hhe, hsa, hml, Except.map]
              rw [if_neg (fun hc => absurd rfl hc.2), if_neg hhe] at hred
              right
              refine ⟨fun hh => hhe (by simp [hh]), ?_⟩
              cases hred
              rfl
        · rw [Bool.not_eq_true] at hsa
          rcases hsl : selectorLoop fn incl excl cl (fileLabel df) (pathLabels df) df.hunks
              (selectors_for_file isels df) st.seen [] with e | pr
          · simp [processFile, hfe, hbv, hhe, hsa, hsl] at h
          · obtain ⟨seen, chosen⟩ := pr
            refine ⟨seen, chosen, Or.inr ⟨hsa, rfl⟩, ?_, ?_⟩
            · intro hc
              obtain ⟨hap, hlen⟩ := hc
              subst hap
              rw [show processFile fn incl excl false cl isels df st =
                  .error (cl ++ ": " ++ fileLabel df ++
                    " requires all hunks when allow_partial_files=false.")
                from by simp [processFile, hfe, hbv, hhe, hsa, hsl, hlen]] at h
              cases h
            · have hred : (if ap = false ∧ chosen.length ≠ df.hunks.length then
                    (.error (cl ++ ": " ++ fileLabel df ++ " requires all hunks when allow_partial_files=false.") : Except String SelState)
                  else if chosen.isEmpty then .ok { st with seen := seen }
                  else .ok { patch_lines := st.patch_lines ++ df.header_lines ++ chosen.flatMap Hunk.lines, selected_files := st.selected_files ++ [fileLabel df], selected_hunks := st.selected_hunks + chosen.length, seen := seen }) = .ok st' := by
                rw [← h]
                simp [processFile, hfe, hbv, hhe, hsa, hsl]
              split at hred
              · cases hred
              · split at hred
                · cases hred
                  rename_i hce
                  exact Or.inl ⟨List.isEmpty_iff.mp (by simpa using hce), rfl⟩
                · cases hred
                  rename_i hce
                  refine Or.inr ⟨?_, rfl⟩
                  intro hh
                  exact hce (by simp [hh])
    · simp [processFile, hfe, hbv] at h

theorem processFile_seen_sub
    (fn : String → String → Bool) (incl excl : List String) (ap : Bool) (cl : String)
    (isels : List (Nat × HunkSelector)) (df : DiffFile) (st st' : SelState)
    (h : processFile fn incl excl ap cl isels df st = .ok st') :
    ∀ j ∈ st'.seen, j ∈ st.seen ∨ ∃ p ∈ selectors_for_file isels df, p.1 = j := by
  intro j hj
  rcases processFile_ok_shape h with ⟨_, hst⟩ | ⟨_, _, _, seen, chosen, hstep, _, hfin⟩
  · rw [hst] at hj
    exact Or.inl hj
  · have hseen : st'.seen = seen := by
      rcases hfin with ⟨_, hst⟩ | ⟨_, hst⟩ <;> rw [hst]
    rw [hseen] at hj
    rcases hstep with ⟨_, hml, _⟩ | ⟨_, hsl⟩
    · exact markAllLoop_seen_sub fn incl excl cl (pathLabels df)
        (selectors_for_file isels df) st.seen seen hml j hj
    · exact selectorLoop_seen_sub fn incl excl cl (fileLabel df) (pathLabels df)
        df.hunks (selectors_for_file isels df) st.seen [] seen chosen hsl j hj

theorem processFiles_seen_sub
    (fn : String → String → Bool) (incl excl : List String) (ap : Bool) (cl : String)
    (isels : List (Nat × HunkSelector)) :
    ∀ (dfs : List DiffFile) (st st' : SelState),
    processFiles fn incl excl ap cl isels dfs st = .ok st' →
    ∀ j ∈ st'.seen, j ∈ st.seen ∨ ∃ df ∈ dfs, ∃ p ∈ selectors_for_file isels df, p.1 = j := by
  intro dfs
  induction dfs with
  | nil =>
    intro st st' h j hj
    simp [processFiles] at h
    exact Or.inl (h ▸ hj)
  | cons d rest ih =>
    intro st st' h j hj
    rcases hp : processFile fn incl excl ap cl isels d st with e | st₁
    · simp [processFiles, hp] at h
    · rw [show processFiles fn incl excl ap cl isels (d :: rest) st =
          processFiles fn incl excl ap cl isels rest st₁
        from by simp [processFiles, hp]] at h
      rcases ih st₁ st' h j hj with h1 | ⟨df, hdf, hrest⟩
      · rcases processFile_seen_sub fn incl excl ap cl isels d st st₁ hp j h1 with h2 | h2
        · exact Or.inl h2
        · exact Or.inr ⟨d, List.mem_cons_self _ _, h2⟩
      · exact Or.inr ⟨df, List.mem_cons_of_mem _ hdf, hrest⟩

/-- C5: a selector whose target file matches no file record of the diff
(neither label, old path, nor new path) makes `select_hunks_for_changeset`
fail with an error and produce no `SelectedPatch`; whenever the file loop
itself completes, that selector's file is listed among the missing
files. -/
theorem c5_missing_selector_file
    (fn : String → String → Bool) (dfs : List DiffFile) (sels : List HunkSelector)
    (incl excl : List String) (ap : Bool) (cl : String) (s : HunkSelector)
    (hs : s ∈ sels) (hnone : ∀ df ∈ dfs, selectorMatchesFile s df = false) :
    (∃ e, select_hunks_for_changeset fn dfs sels incl excl ap cl = .error e) ∧
    (∀ st : SelState,
      processFiles fn incl excl ap cl (enumSel 0 sels) dfs initialSelState = .ok st →
      s.file ∈ missingSelectors sels st.seen) := by
  obtain ⟨i, hi⟩ := mem_enumSel_of_mem sels s 0 hs
  have hmiss : ∀ st : SelState,
      processFiles fn incl excl ap cl (enumSel 0 sels) dfs initialSelState = .ok st →
      s.file ∈ missingSelectors sels st.seen := by
    intro st hok
    have hnotin : i ∉ st.seen := by
      intro hmem
      rcases processFiles_seen_sub fn incl excl ap cl (enumSel 0 sels) dfs
          initialSelState st hok i hmem with h1 | ⟨df, hdf, p, hp, hpj⟩
      · simp [initialSelState] at h1
      · have hpm := List.mem_filter.mp hp
        have hp1 : (i, p.2) ∈ enumSel 0 sels := by
          rw [← hpj]
          simpa using hpm.1
        have hps : p.2 = s := enumSel_idx_inj sels 0 i p.2 s hp1 hi
        rw [hps] at hpm
        rw [hnone df hdf] at hpm
        simp at hpm
    refine List.mem_map.mpr ⟨(i, s), List.mem_filter.mpr ⟨hi, ?_⟩, rfl⟩
    simpa using hnotin
  refine ⟨?_, hmiss⟩
  rcases hpf : processFiles fn incl excl ap cl (enumSel 0 sels) dfs initialSelState with e | st
  · exact select_err_of_processFiles_err fn dfs sels incl excl ap cl
      (List.ne_nil_of_mem hs) ⟨e, hpf⟩
  · have hm := hmiss st hpf
    have hne : ¬ (missingSelectors sels st.seen).isEmpty = true := by
      rw [List.isEmpty_iff]
      exact fun hh => by rw [hh] at hm; simp at hm
    have hselne : sels.isEmpty = false := by
      rw [List.isEmpty_eq_false]
      exact List.ne_nil_of_mem hs
    exact ⟨cl ++ ": selector file(s) not found in diff: " ++
      String.intercalate ", " (sortedDedup (missingSelectors sels st.seen)) ++ ".",
      by simp [select_hunks_for_changeset, hselne, hpf, hne]⟩

/-- Witness for C5: a selector naming a file absent from the diff. -/
theorem c5_missing_selector_file_witness :
    (∃ e, select_hunks_for_changeset noMatch [dfTwoHunks] [absentSelector, allSelector]
      [] [] true "cs" = .error e) ∧
    (∀ st : SelState,
      processFiles noMatch [] [] true "cs" (enumSel 0 [absentSelector, allSelector])
        [dfTwoHunks] initialSelState = .ok st →
      absentSelector.file ∈ missingSelectors [absentSelector, allSelector] st.seen) :=
  c5_missing_selector_file noMatch [dfTwoHunks] [absentSelector, allSelector] [] [] true "cs"
    absentSelector (by simp) (by decide)

/-- C4: a selector carrying a 1-based occurrence index `n` over `k`
matching candidates chooses exactly the `n`-th candidate in parse order
when `n ≤ k` (the assembled patch for a single-selector changeset consists
of the file header followed by exactly that candidate's lines), and makes
resolution fail with the out-of-range error when `n > k`. -/
theorem c4_occurrence_selection
    (fn : String → String → Bool) (df : DiffFile) (s : HunkSelector) (n : Nat) (cl : String)
    (hm : selectorMatchesFile s df = true) (hocc : s.occurrence = some n)
    (_hpos : 1 ≤ n) (hall : s.all_hunks = false)
    (hbin : df.is_binary = false) (hcne : candidateHunks s df.hunks ≠ []) :
    (n ≤ (candidateHunks s df.hunks).length →
      select_hunks_for_changeset fn [df] [s] [] [] true cl =
        .ok ⟨String.intercalate "\n" (df.header_lines ++
            ((candidateHunks s df.hunks).getD (n - 1) defaultHunk).lines) ++ "\n",
          1, 1, [fileLabel df]⟩) ∧
    ((candidateHunks s df.hunks).length < n →
      select_hunks_for_changeset fn [df] [s] [] [] true cl =
        .error (cl ++ ": selector for " ++ fileLabel df ++ " occurrence " ++ toString n ++
          " exceeds " ++ toString (candidateHunks s df.hunks).length ++ " matches.")) := by
  have hhne : ¬ df.hunks.isEmpty = true := by
    intro hh
    rw [List.isEmpty_iff] at hh
    rw [hh] at hcne
    exact hcne rfl
  have hfsels : selectors_for_file [(0, s)] df = [(0, s)] := by
    simp [selectors_for_file, hm]
  have hemp : ¬ (candidateHunks s df.hunks).isEmpty = true := by
    rw [List.isEmpty_iff]
    exact hcne
  have hsac : selectAllCond [(0, s)] true = false := by
    simp [selectAllCond, hall]
  constructor
  · intro hle
    have hnot : ¬ n > (candidateHunks s df.hunks).length := by omega
    have hloop : selectorLoop fn [] [] cl (fileLabel df) (pathLabels df) df.hunks
        [(0, s)] [] [] =
        .ok ([0], [(candidateHunks s df.hunks).getD (n - 1) defaultHunk]) := by
      simp [selectorLoop, checkPaths_nil_ok, hemp, hocc, hnot]
    have hpf : processFile fn [] [] true cl [(0, s)] df initialSelState = .ok
        ⟨df.header_lines ++ ((candidateHunks s df.hunks).getD (n - 1) defaultHunk).lines,
          [fileLabel df], 1, [0]⟩ := by
      simp [processFile, hfsels, hbin, hhne, hsac, hloop, initialSelState]
    simp [select_hunks_for_changeset, processFiles, hpf, missingSelectors, enumSel]
  · intro hgt
    have hloop : selectorLoop fn [] [] cl (fileLabel df) (pathLabels df) df.hunks
        [(0, s)] [] [] =
        .error (cl ++ ": selector for " ++ fileLabel df ++ " occurrence " ++ toString n ++
          " exceeds " ++ toString (candidateHunks s df.hunks).length ++ " matches.") := by
      simp [selectorLoop, checkPaths_nil_ok, hemp, hocc, hgt]
    have hpf : processFile fn [] [] true cl [(0, s)] df initialSelState =
        .error (cl ++ ": selector for " ++ fileLabel df ++ " occurrence " ++ toString n ++
          " exceeds " ++ toString (candidateHunks s df.hunks).length ++ " matches.") := by
      simp [processFile, hfsels, hbin, hhne, hsac, hloop, initialSelState]
    simp [select_hunks_for_changeset, processFiles, hpf, enumSel]

/-- Witness for C4: occurrence 2 over the two-hunk file selects the second
hunk in parse order. -/
theorem c4_occurrence_selection_witness :
    (2 ≤ (candidateHunks (occSelector 2) dfTwoHunks.hunks).length →
      select_hunks_for_changeset noMatch [dfTwoHunks] [occSelector 2] [] [] true "cs" =
        .ok ⟨String.intercalate "\n" (dfTwoHunks.header_lines ++
            ((candidateHunks (occSelector 2) dfTwoHunks.hunks).getD (2 - 1) defaultHunk).lines) ++ "\n",
          1, 1, [fileLabel dfTwoHunks]⟩) ∧
    ((candidateHunks (occSelector 2) dfTwoHunks.hunks).length < 2 →
      select_hunks_for_changeset noMatch [dfTwoHunks] [occSelector 2] [] [] true "cs" =
        .error ("cs" ++ ": selector for " ++ fileLabel dfTwoHunks ++ " occurrence " ++
          toString 2 ++ " exceeds " ++
          toString (candidateHunks (occSelector 2) dfTwoHunks.hunks).length ++ " matches.")) :=
  c4_occurrence_selection noMatch dfTwoHunks (occSelector 2) 2 "cs" (by decide) rfl
    (by decide) rfl rfl (by decide)

/-- C7: for a diff that renames a file (distinct truthy old and new
paths), a selector referencing the pre-rename path still matches the file
record, selection succeeds and assembles the file's hunk under the rename
header (labelled by the new path), and `_warn_old_path_selectors` emits
exactly one warning — not an error — about the old-path reference. -/
theorem c7_rename_old_path
    (fn : String → String → Bool) (df : DiffFile) (s : HunkSelector) (h : Hunk)
    (idx : Nat) (cl op np : String)
    (hold : df.old_path = some op) (hnew : df.new_path = some np)
    (hopne : op ≠ "") (hnpne : np ≠ "") (hdiff : op ≠ np)
    (hsf : s.file = op) (hbin : df.is_binary = false) (hhunks : df.hunks = [h])
    (hrange : s.range_header = none) (hcont : s.contains = [])
    (hexc : s.excludes = []) (hocc : s.occurrence = none) (hall : s.all_hunks = false) :
    (selectorMatchesFile s df = true) ∧
    (select_hunks_for_changeset fn [df] [s] [] [] true cl =
      .ok ⟨String.intercalate "\n" (df.header_lines ++ h.lines) ++ "\n", 1, 1, [np]⟩) ∧
    (warn_old_path_selectors [df] [s] idx = [oldPathWarning idx op np]) := by
  have hlabel : fileLabel df = np := by
    simp [fileLabel, hnew, hnpne]
  have hmatch : selectorMatchesFile s df = true := by
    simp [selectorMatchesFile, hold, hsf, hopne]
  refine ⟨hmatch, ?_, ?_⟩
  · have hcands : candidateHunks s df.hunks = [h] := by
      simp [candidateHunks, hhunks, hrange, hcont, hexc]
    have hhne : ¬ df.hunks.isEmpty = true := by
      simp [hhunks]
    have hfsels : selectors_for_file [(0, s)] df = [(0, s)] := by
      simp [selectors_for_file, hmatch]
    have hsac : selectAllCond [(0, s)] true = false := by
      simp [selectAllCond, hall]
    have hcands2 : candidateHunks s [h] = [h] := by
      simp [candidateHunks, hrange, hcont, hexc]
    have hloop : selectorLoop fn [] [] cl np (pathLabels df) [h]
        [(0, s)] [] [] = .ok ([0], [h]) := by
      simp [selectorLoop, checkPaths_nil_ok, hcands2, hocc]
    have hpf : processFile fn [] [] true cl [(0, s)] df initialSelState = .ok
        ⟨df.header_lines ++ h.lines, [np], 1, [0]⟩ := by
      simp [processFile, hfsels, hbin, hhne, hsac, hloop, initialSelState, hlabel, hhunks]
    simp [select_hunks_for_changeset, processFiles, hpf, missingSelectors, enumSel]
  · simp [warn_old_path_selectors, renamePairs, renameLookup, oldPathWarning, hold, hnew,
      hopne, hnpne, hdiff, hsf]

/-- Witness for C7: the rename `old.txt` → `new.txt` with one content
hunk, addressed through the old path by a bare selector. -/
theorem c7_rename_old_path_witness :
    (selectorMatchesFile oldPathSelector dfRename = true) ∧
    (select_hunks_for_changeset noMatch [dfRename] [oldPathSelector] [] [] true "cs" =
      .ok ⟨String.intercalate "\n" (dfRename.header_lines ++ renameHunk.lines) ++ "\n",
        1, 1, ["new.txt"]⟩) ∧
    (warn_old_path_selectors [dfRename] [oldPathSelector] 1 =
      [oldPathWarning 1 "old.txt" "new.txt"]) :=
  c7_rename_old_path noMatch dfRename oldPathSelector renameHunk 1 "cs" "old.txt" "new.txt"
    rfl rfl (by decide) (by decide) (by decide) rfl rfl rfl rfl rfl rfl rfl rfl

theorem candidateHunks_subset {s : HunkSelector} {hunks : List Hunk} :
    ∀ x ∈ candidateHunks s hunks, x ∈ hunks :=
  fun _ hx => (List.mem_filter.mp hx).1

theorem getElemD_mem {l : List Hunk} {k : Nat} (hk : k < l.length) :
    l[k]?.getD defaultHunk ∈ l := by
  rw [List.getElem?_eq_getElem hk]
  simp

theorem nodup_append_singleton {l : List Hunk} {a : Hunk} (h : l.Nodup) (ha : a ∉ l) :
    (l ++ [a]).Nodup := by
  refine List.Nodup.append h (List.nodup_singleton a) ?_
  intro x hx hx'
  simp at hx'
  subst hx'
  exact ha hx

theorem selectorLoop_chosen_inv
    (fn : String → String → Bool) (incl excl : List String) (cl label : String)
    (labels : List String) (hunks : List Hunk) :
    ∀ (fsels : List (Nat × HunkSelector)) (seen : List Nat) (chosen : List Hunk)
      (seen' : List Nat) (chosen' : List Hunk),
    selectorLoop fn incl excl cl label labels hunks fsels seen chosen = .ok (seen', chosen') →
    (∀ x ∈ chosen', x ∈ chosen ∨ x ∈ hunks) ∧ (chosen.Nodup → chosen'.Nodup) := by
  intro fsels
  induction fsels with
  | nil =>
    intro seen chosen seen' chosen' h
    simp [selectorLoop] at h
    rw [← h.2]
    exact ⟨fun x hx => Or.inl hx, fun hn => hn⟩
  | cons p rest ih =>
    intro seen chosen seen' chosen' h
    obtain ⟨i, s⟩ := p
    rcases hchk : checkPaths fn incl excl cl s.file labels with e | u
    · simp [selectorLoop, hchk] at h
    · by_cases hemp : (candidateHunks s hunks).isEmpty = true
      · simp [selectorLoop, hchk, hemp] at h
      · have hclen : 0 < (candidateHunks s hunks).length := by
          rcases hcv : candidateHunks s hunks with _ | ⟨x, xs⟩
          · rw [hcv] at hemp
            simp at hemp
          · simp
        have hstep : ∀ k : Nat, k < (candidateHunks s hunks).length →
            (selectorLoop fn incl excl cl label labels hunks rest (i :: seen)
                (if (candidateHunks s hunks)[k]?.getD defaultHunk ∈ chosen then chosen
                 else chosen ++ [(candidateHunks s hunks)[k]?.getD defaultHunk]) =
              .ok (seen', chosen')) →
            (∀ x ∈ chosen', x ∈ chosen ∨ x ∈ hunks) ∧ (chosen.Nodup → chosen'.Nodup) := by
          intro k hk hrec
          have hchm : (candidateHunks s hunks)[k]?.getD defaultHunk ∈ hunks :=
            candidateHunks_subset _ (getElemD_mem hk)
          obtain ⟨hmem, hnd⟩ := ih (i :: seen)
            (if (candidateHunks s hunks)[k]?.getD defaultHunk ∈ chosen then chosen
             else chosen ++ [(candidateHunks s hunks)[k]?.getD defaultHunk])
            seen' chosen' hrec
          by_cases hdup : (candidateHunks s hunks)[k]?.getD defaultHunk ∈ chosen
          · rw [if_pos hdup] at hmem hnd
            exact ⟨hmem, hnd⟩
          · rw [if_neg hdup] at hmem hnd
            constructor
            · intro x hx
              rcases hmem x hx with hx' | hx'
              · rcases List.mem_append.mp hx' with hx' | hx'
                · exact Or.inl hx'
                · simp at hx'
                  subst hx'
                  exact Or.inr hchm
              · exact Or.inr hx'
            · intro hn
              exact hnd (nodup_append_singleton hn hdup)
        rcases hocc : s.occurrence with _ | n
        · by_cases hlen : (candidateHunks s hunks).length > 1
          · simp [selectorLoop, hchk, hemp, hocc, hlen] at h
          · refine hstep 0 hclen ?_
            by_cases hdup : (candidateHunks s hunks)[0]?.getD defaultHunk ∈ chosen
            · simpa [selectorLoop, hchk, hemp, hocc, hlen, hdup] using h
            · simpa [selectorLoop, hchk, hemp, hocc, hlen, hdup] using h
        · by_cases hlen : n > (candidateHunks s hunks).length
          · simp [selectorLoop, hchk, hemp, hocc, hlen] at h
          · refine hstep (n - 1) (by omega) ?_
            by_cases hdup : (candidateHunks s hunks)[n - 1]?.getD defaultHunk ∈ chosen
            · simpa [selectorLoop, hchk, hemp, hocc, hlen, hdup] using h
            · simpa [selectorLoop, hchk, hemp, hocc, hlen, hdup] using h

/-- C10: the per-file chosen-hunk accumulation deduplicates by structural
value equality: whenever the selector loop succeeds starting from a
duplicate-free accumulator, the resulting chosen list is duplicate-free
(a hunk equal in header and lines to an already chosen one is never added
again) and contains only hunks of the file — so two byte-identical hunks
contribute at most one entry even when distinct occurrence selectors pick
both. -/
theorem c10_dedup_by_value
    (fn : String → String → Bool) (incl excl : List String) (cl label : String)
    (labels : List String) (hunks : List Hunk) (fsels : List (Nat × HunkSelector))
    (seen : List Nat) (chosen₀ : List Hunk) (seen' : List Nat) (chosen' : List Hunk)
    (h0 : chosen₀.Nodup)
    (h : selectorLoop fn incl excl cl label labels hunks fsels seen chosen₀ =
      .ok (seen', chosen')) :
    chosen'.Nodup ∧ ∀ x ∈ chosen', x ∈ chosen₀ ∨ x ∈ hunks :=
  ⟨(selectorLoop_chosen_inv fn incl excl cl label labels hunks fsels seen chosen₀
      seen' chosen' h).2 h0,
   (selectorLoop_chosen_inv fn incl excl cl label labels hunks fsels seen chosen₀
      seen' chosen' h).1⟩

/-- Witness for C10: a file with two byte-identical hunks, picked by
occurrence 1 and occurrence 2; the accumulated chosen list holds a single
copy. -/
theorem c10_dedup_by_value_witness :
    List.Nodup [dupHunk] ∧ ∀ x ∈ [dupHunk], x ∈ ([] : List Hunk) ∨ x ∈ [dupHunk, dupHunk] :=
  c10_dedup_by_value noMatch [] [] "cs" "f.txt" ["f.txt"] [dupHunk, dupHunk]
    [(0, occSelector 1), (1, occSelector 2)] [] [] [1, 0] [dupHunk] List.nodup_nil rfl

/-- C1 counterexample: with two occurrence selectors in reverse order the
selection succeeds and the assembled output lists the file's second hunk
before its first — the emitted hunk sequence is not a subsequence of the
file's parsed hunk list, so hunks do not always appear in source order. -/
theorem c1_counterexample :
    select_hunks_for_changeset noMatch [dfTwoHunks] [occSelector 2, occSelector 1]
        [] [] true "cs" =
      .ok ⟨"diff --git a/f.txt b/f.txt\n@@ -5 +5 @@\n-y\n+b\n@@ -1 +1 @@\n-x\n+a\n",
        1, 2, ["f.txt"]⟩ ∧
    selectorLoop noMatch [] [] "cs" (fileLabel dfTwoHunks) (pathLabels dfTwoHunks)
      dfTwoHunks.hunks (enumSel 0 [occSelector 2, occSelector 1]) [] [] =
        .ok ([1, 0], [hunkB, hunkA]) ∧
    ¬ List.Sublist [hunkB, hunkA] dfTwoHunks.hunks := by
  refine ⟨rfl, rfl, ?_⟩
  intro hsub
  exact absurd (hsub.eq_of_length rfl) (by decide)

/-- C1 (amended): whenever the whole-file path applies to a file (an
`all`-flagged selector, or a bare selector with partial files disallowed)
and its processing succeeds, the emitted block is the file's header lines
followed by the file's full hunk list in original source order; on the
per-selector path hunks are emitted in first-selection order, which can
differ from source order when occurrence indices pick later hunks first
(see the counterexample). -/
theorem c1_select_all_source_order
    (fn : String → String → Bool) (incl excl : List String) (ap : Bool) (cl : String)
    (isels : List (Nat × HunkSelector)) (df : DiffFile) (st st' : SelState)
    (hne : selectors_for_file isels df ≠ [])
    (hall : selectAllCond (selectors_for_file isels df) ap = true)
    (hok : processFile fn incl excl ap cl isels df st = .ok st') :
    st'.patch_lines = st.patch_lines ++ df.header_lines ++ df.hunks.flatMap Hunk.lines ∧
    st'.selected_hunks = st.selected_hunks + df.hunks.length ∧
    st'.selected_files = st.selected_files ++ [fileLabel df] := by
  rcases processFile_ok_shape hok with ⟨hfe, _⟩ | ⟨_, _, hhe, seen, chosen, hstep, _, hfin⟩
  · exact absurd hfe hne
  · have hch : chosen = df.hunks := by
      rcases hstep with ⟨_, _, hc⟩ | ⟨hf, _⟩
      · exact hc
      · rw [hall] at hf
        cases hf
    subst hch
    rcases hfin with ⟨hcne, _⟩ | ⟨_, hst⟩
    · exact absurd (by simp [hcne]) hhe
    · rw [hst]
      exact ⟨rfl, rfl, rfl⟩

/-- Witness for the amended C1: an `all`-flagged selector emits both hunks
of the two-hunk file in source order. -/
theorem c1_select_all_source_order_witness :
    SelState.patch_lines ⟨["diff --git a/f.txt b/f.txt", "@@ -1 +1 @@", "-x", "+a",
        "@@ -5 +5 @@", "-y", "+b"], ["f.txt"], 2, [0]⟩ =
      initialSelState.patch_lines ++ dfTwoHunks.header_lines ++
        dfTwoHunks.hunks.flatMap Hunk.lines ∧
    SelState.selected_hunks ⟨["diff --git a/f.txt b/f.txt", "@@ -1 +1 @@", "-x", "+a",
        "@@ -5 +5 @@", "-y", "+b"], ["f.txt"], 2, [0]⟩ =
      initialSelState.selected_hunks + dfTwoHunks.hunks.length ∧
    SelState.selected_files ⟨["diff --git a/f.txt b/f.txt", "@@ -1 +1 @@", "-x", "+a",
        "@@ -5 +5 @@", "-y", "+b"], ["f.txt"], 2, [0]⟩ =
      initialSelState.selected_files ++ [fileLabel dfTwoHunks] :=
  c1_select_all_source_order noMatch [] [] true "cs" [(0, allSelector)] dfTwoHunks
    initialSelState
    ⟨["diff --git a/f.txt b/f.txt", "@@ -1 +1 @@", "-x", "+a", "@@ -5 +5 @@", "-y", "+b"],
      ["f.txt"], 2, [0]⟩
    (by decide) rfl rfl

theorem processFile_patch_shape
    {fn : String → String → Bool} {incl excl : List String} {ap : Bool} {cl : String}
    {isels : List (Nat × HunkSelector)} {df : DiffFile} {st st' : SelState}
    (h : processFile fn incl excl ap cl isels df st = .ok st') :
    st'.patch_lines = st.patch_lines ∨
    ∃ chosen : List Hunk, chosen ≠ [] ∧ (∀ x ∈ chosen, x ∈ df.hunks) ∧
      st'.patch_lines = st.patch_lines ++ (df.header_lines ++ chosen.flatMap Hunk.lines) := by
  rcases processFile_ok_shape h with ⟨_, hst⟩ | ⟨_, _, _, seen, chosen, hstep, _, hfin⟩
  · rw [hst]
    exact Or.inl rfl
  · have hmem : ∀ x ∈ chosen, x ∈ df.hunks := by
      rcases hstep with ⟨_, _, hc⟩ | ⟨_, hsl⟩
      · rw [hc]
        exact fun x hx => hx
      · intro x hx
        rcases (selectorLoop_chosen_inv fn incl excl cl (fileLabel df) (pathLabels df)
            df.hunks (selectors_for_file isels df) st.seen [] seen chosen hsl).1 x hx
          with hx' | hx'
        · simp at hx'
        · exact hx'
    rcases hfin with ⟨_, hst⟩ | ⟨hcne, hst⟩
    · rw [hst]
      exact Or.inl rfl
    · rw [hst]
      refine Or.inr ⟨chosen, hcne, hmem, ?_⟩
      simp [List.append_assoc]

theorem processFiles_assembly
    (fn : String → String → Bool) (incl excl : List String) (ap : Bool) (cl : String)
    (isels : List (Nat × HunkSelector)) :
    ∀ (dfs : List DiffFile) (st st' : SelState),
    processFiles fn incl excl ap cl isels dfs st = .ok st' →
    ∃ blks : List String, st'.patch_lines = st.patch_lines ++ blks ∧ IsAssembly dfs blks := by
  intro dfs
  induction dfs with
  | nil =>
    intro st st' h
    simp [processFiles] at h
    exact ⟨[], by simp [← h], IsAssembly.nil⟩
  | cons d rest ih =>
    intro st st' h
    rcases hp : processFile fn incl excl ap cl isels d st with e | st₁
    · simp [processFiles, hp] at h
    · rw [show processFiles fn incl excl ap cl isels (d :: rest) st =
          processFiles fn incl excl ap cl isels rest st₁
        from by simp [processFiles, hp]] at h
      obtain ⟨blks, hpatch, hasm⟩ := ih st₁ st' h
      rcases processFile_patch_shape hp with hp1 | ⟨chosen, hcne, hmem, hp1⟩
      · exact ⟨blks, by rw [hpatch, hp1], IsAssembly.skip d hasm⟩
      · refine ⟨d.header_lines ++ chosen.flatMap Hunk.lines ++ blks, ?_,
          IsAssembly.cons d chosen hcne hmem hasm⟩
        rw [hpatch, hp1]
        simp [List.append_assoc]

theorem IsAssembly_line_mem {dfs : List DiffFile} {blks : List String}
    (h : IsAssembly dfs blks) : ∀ l ∈ blks, ∃ df ∈ dfs, fileLineMem df l := by
  induction h with
  | nil => intro l hl; simp at hl
  | skip df hrest ih =>
    intro l hl
    obtain ⟨d, hd, hm⟩ := ih l hl
    exact ⟨d, List.mem_cons_of_mem _ hd, hm⟩
  | cons df chosen hcne hmem hrest ih =>
    intro l hl
    rcases List.mem_append.mp hl with hl' | hl'
    · rcases List.mem_append.mp hl' with hl'' | hl''
      · exact ⟨df, List.mem_cons_self _ _, Or.inl hl''⟩
      · obtain ⟨hk, hkm, hkl⟩ := List.mem_flatMap.mp hl''
        exact ⟨df, List.mem_cons_self _ _, Or.inr ⟨hk, hmem hk hkm, hkl⟩⟩
    · obtain ⟨d, hd, hm⟩ := ih l hl'
      exact ⟨d, List.mem_cons_of_mem _ hd, hm⟩

theorem appendLineLast_line_mem : ∀ (hs : List Hunk) (l : String) (h' : Hunk),
    h' ∈ appendLineLast hs l → ∀ x ∈ h'.lines, (∃ h ∈ hs, x ∈ h.lines) ∨ x = l := by
  intro hs
  induction hs with
  | nil => intro l h' hh'; simp [appendLineLast] at hh'
  | cons h hs ih =>
    intro l h' hh' x hx
    cases hs with
    | nil =>
      simp [appendLineLast] at hh'
      subst hh'
      rcases List.mem_append.mp hx with hx' | hx'
      · exact Or.inl ⟨h, by simp, hx'⟩
      · simp at hx'
        exact Or.inr hx'
    | cons h2 hs2 =>
      rcases List.mem_cons.mp hh' with hh' | hh'
      · subst hh'
        exact Or.inl ⟨h', by simp, hx⟩
      · rcases ih l h' hh' x hx with ⟨hk, hkm, hkx⟩ | hx'
        · exact Or.inl ⟨hk, List.mem_cons_of_mem _ hkm, hkx⟩
        · exact Or.inr hx'

theorem parseLines_line_mem : ∀ (ls : List String) (cur : Option DiffFile) (L : List String),
    (∀ x ∈ ls, x ∈ L) → CurLinesOK L cur →
    ∀ df ∈ parseLines ls cur, ∀ l, fileLineMem df l → l ∈ L := by
  intro ls
  induction ls with
  | nil =>
    intro cur L _ hcur df hdf l hl
    match cur with
    | none => simp [parseLines, flushOpt] at hdf
    | some c =>
      simp [parseLines, flushOpt] at hdf
      subst hdf
      exact hcur l hl
  | cons a ls ih =>
    intro cur L hin hcur df hdf l hl
    have hls : ∀ x ∈ ls, x ∈ L := fun x hx => hin x (List.mem_cons_of_mem _ hx)
    have ha : a ∈ L := hin a (List.mem_cons_self _ _)
    by_cases hd : pystartswith a "diff --git " = true
    · rw [show parseLines (a :: ls) cur = flushOpt cur ++ parseLines ls (some (newFileOf a))
        from by simp [parseLines, hd]] at hdf
      rcases List.mem_append.mp hdf with hdf | hdf
      · match cur with
        | none => simp [flushOpt] at hdf
        | some c =>
          simp [flushOpt] at hdf
          subst hdf
          exact hcur l hl
      · have hnf : CurLinesOK L (some (newFileOf a)) := by
          intro x hx
          rcases hx with hx | ⟨hk, hkm, _⟩
          · simp [newFileOf] at hx
            rw [hx]
            exact ha
          · simp [newFileOf] at hkm
        exact ih (some (newFileOf a)) L hls hnf df hdf l hl
    · rw [Bool.not_eq_true] at hd
      match cur with
      | none =>
        rw [show parseLines (a :: ls) none = parseLines ls none
          from by simp [parseLines, hd]] at hdf
        exact ih none L hls trivial df hdf l hl
      | some c =>
        rcases hbv : c.is_binary with _ | _
        · by_cases hne : c.hunks.isEmpty = true
          · by_cases hm : pystartswith a "GIT binary patch" = true
            · rw [show parseLines (a :: ls) (some c) =
                  parseLines ls (some { c with is_binary := true, binary_lines := c.binary_lines ++ [a] })
                from by simp [parseLines, hd, hbv, hne, hm]] at hdf
              have hcur' : CurLinesOK L
                  (some { c with is_binary := true, binary_lines := c.binary_lines ++ [a] }) := by
                intro x hx
                exact hcur x (by simpa [fileLineMem] using hx)
              exact ih _ L hls hcur' df hdf l hl
            · by_cases hh : pystartswith a "@@ " = true
              · rw [show parseLines (a :: ls) (some c) =
                    parseLines ls (some { c with hunks := c.hunks ++ [⟨a, [a]⟩] })
                  from by simp [parseLines, hd, hbv, hne, hm, hh]] at hdf
                have hcur' : CurLinesOK L (some { c with hunks := c.hunks ++ [⟨a, [a]⟩] }) := by
                  intro x hx
                  rcases hx with hx | ⟨hk, hkm, hkl⟩
                  · exact hcur x (Or.inl (by simpa using hx))
                  · simp at hkm
                    rcases hkm with hkm | hkm
                    · exact hcur x (Or.inr ⟨hk, hkm, hkl⟩)
                    · rw [hkm] at hkl
                      simp at hkl
                      rw [hkl]
                      exact ha
                exact ih _ L hls hcur' df hdf l hl
              · rw [show parseLines (a :: ls) (some c) =
                    parseLines ls (some { c with header_lines := c.header_lines ++ [a] })
                  from by simp [parseLines, hd, hbv, hne, hm, hh]] at hdf
                have hcur' : CurLinesOK L
                    (some { c with header_lines := c.header_lines ++ [a] }) := by
                  intro x hx
                  rcases hx with hx | ⟨hk, hkm, hkl⟩
                  · simp at hx
                    rcases hx with hx | hx
                    · exact hcur x (Or.inl hx)
                    · rw [hx]
                      exact ha
                  · exact hcur x (Or.inr ⟨hk, by simpa using hkm, hkl⟩)
                exact ih _ L hls hcur' df hdf l hl
          · by_cases hh : pystartswith a "@@ " = true
            · rw [show parseLines (a :: ls) (some c) =
                  parseLines ls (some { c with hunks := c.hunks ++ [⟨a, [a]⟩] })
                from by simp [parseLines, hd, hbv, hne, hh]] at hdf
              have hcur' : CurLinesOK L (some { c with hunks := c.hunks ++ [⟨a, [a]⟩] }) := by
                intro x hx
                rcases hx with hx | ⟨hk, hkm, hkl⟩
                · exact hcur x (Or.inl (by simpa using hx))
                · simp at hkm
                  rcases hkm with hkm | hkm
                  · exact hcur x (Or.inr ⟨hk, hkm, hkl⟩)
                  · rw [hkm] at hkl
                    simp at hkl
                    rw [hkl]
                    exact ha
              exact ih _ L hls hcur' df hdf l hl
            · rw [show parseLines (a :: ls) (some c) =
                  parseLines ls (some { c with hunks := appendLineLast c.hunks a })
                from by simp [parseLines, hd, hbv, hne, hh]] at hdf
              have hcur' : CurLinesOK L
                  (some { c with hunks := appendLineLast c.hunks a }) := by
                intro x hx
                rcases hx with hx | ⟨hk, hkm, hkl⟩
                · exact hcur x (Or.inl (by simpa using hx))
                · rcases appendLineLast_line_mem c.hunks a hk (by simpa using hkm) x hkl
                    with ⟨hj, hjm, hjx⟩ | hx'
                  · exact hcur x (Or.inr ⟨hj, hjm, hjx⟩)
                  · rw [hx']
                    exact ha
              exact ih _ L hls hcur' df hdf l hl
        · rw [show parseLines (a :: ls) (some c) =
              parseLines ls (some { c with binary_lines := c.binary_lines ++ [a] })
            from by simp [parseLines, hd, hbv]] at hdf
          have hcur' : CurLinesOK L
              (some { c with binary_lines := c.binary_lines ++ [a] }) := by
            intro x hx
            exact hcur x (by simpa [fileLineMem] using hx)
          exact ih _ L hls hcur' df hdf l hl

/-- C2: for every successful selection over a parsed diff, the assembled
text is the newline-join of a line list that decomposes file by file into
original header lines followed by the original lines of a non-empty choice
of that file's hunks (nothing rewritten or renumbered), ends with a
trailing newline, and every such line appears verbatim among the lines of
the original diff text. -/
theorem c2_assembled_subset
    (fn : String → String → Bool) (d : String) (sels : List HunkSelector)
    (incl excl : List String) (ap : Bool) (cl : String) (p : SelectedPatch)
    (h : select_hunks_for_changeset fn (parse_unified_diff d) sels incl excl ap cl = .ok p) :
    ∃ pls : List String, p.text = String.intercalate "\n" pls ++ "\n" ∧
      IsAssembly (parse_unified_diff d) pls ∧ ∀ l ∈ pls, l ∈ pysplitlines d := by
  by_cases hse : sels.isEmpty = true
  · rw [show select_hunks_for_changeset fn (parse_unified_diff d) sels incl excl ap cl =
        .error (cl ++ ": hunk_selectors must be non-empty.")
      from by simp [select_hunks_for_changeset, hse]] at h
    cases h
  · rcases hpf : processFiles fn incl excl ap cl (enumSel 0 sels) (parse_unified_diff d)
        initialSelState with e | st
    · simp [select_hunks_for_changeset, hse, hpf] at h
    · have hred : (if ¬ (missingSelectors sels st.seen).isEmpty = true then
          (.error (cl ++ ": selector file(s) not found in diff: " ++
            String.intercalate ", " (sortedDedup (missingSelectors sels st.seen)) ++ ".") :
            Except String SelectedPatch)
          else if st.selected_files.isEmpty then
            .error (cl ++ ": no hunks selected for this changeset.")
          else .ok ⟨String.intercalate "\n" st.patch_lines ++ "\n",
            st.selected_files.length, st.selected_hunks, st.selected_files⟩) = .ok p := by
        rw [← h]
        simp [select_hunks_for_changeset, hse, hpf]
      split at hred
      · cases hred
      · split at hred
        · cases hred
        · cases hred
          obtain ⟨blks, hpatch, hasm⟩ := processFiles_assembly fn incl excl ap cl
            (enumSel 0 sels) (parse_unified_diff d) initialSelState st hpf
          have hpl : st.patch_lines = blks := by
            simpa [initialSelState] using hpatch
          refine ⟨st.patch_lines, rfl, ?_, ?_⟩
          · rw [hpl]
            exact hasm
          · intro l hl
            rw [hpl] at hl
            obtain ⟨df, hdf, hflm⟩ := IsAssembly_line_mem hasm l hl
            exact parseLines_line_mem (pysplitlines d) none (pysplitlines d)
              (fun x hx => hx) trivial df hdf l hflm

/-- Witness for C2 at a concrete one-file diff with an `all` selector. -/
theorem c2_assembled_subset_witness :
    ∃ pls : List String,
      SelectedPatch.text ⟨"diff --git a/f.txt b/f.txt\n@@ -1 +1 @@\n-x\n+a\n", 1, 1, ["f.txt"]⟩ =
        String.intercalate "\n" pls ++ "\n" ∧
      IsAssembly (parse_unified_diff smallDiffText) pls ∧
      ∀ l ∈ pls, l ∈ pysplitlines smallDiffText :=
  c2_assembled_subset noMatch smallDiffText [allSelector] [] [] true "cs"
    ⟨"diff --git a/f.txt b/f.txt\n@@ -1 +1 @@\n-x\n+a\n", 1, 1, ["f.txt"]⟩ rfl

end PatchApply
